import Mathlib

/-!
Shallow embedding of the geekcommander core (src/core.rs, src/archive.rs):
the pane/navigation data model, the glob matcher, the archive-handler
selection and listing logic, and the transfer engine (copy / move / delete)
over an abstract filesystem tree.  Paths are modelled as lists of
components; strings are Lean `String`s, manipulated through character-list
helpers that mirror the Rust `str` operations used by the source
(`to_lowercase`, `starts_with`, `ends_with`, `contains`, `split`) — the
source slices byte-wise, which coincides with character-wise slicing on the
ASCII names exercised by the claims.
-/

namespace GeekCommander

/-- Error type from src/error.rs (the variants the embedded core uses). -/
inductive GCError
  | Io (msg : String)
  | Archive (msg : String)
  | FileOperation (msg : String)
deriving Repr, DecidableEq

/-- A filesystem path, as its list of components (root = `[]`). -/
abbrev FPath := List String

/-- Rust `Path::file_name`: the last component, `none` for the root. -/
def fpathFileName (p : FPath) : Option String := p.getLast?

/-- Rust `Path::parent`: drop the last component, `none` at the root. -/
def fpathParent (p : FPath) : Option FPath :=
  match p with
  | [] => none
  | _ => some p.dropLast

/-- Rust `str::to_lowercase` (ASCII behaviour). -/
def lowerStr (s : String) : String := ⟨s.data.map Char.toLower⟩

/-- Rust `str::starts_with`. -/
def strStartsWith (s pre : String) : Bool := pre.data.isPrefixOf s.data

/-- Rust `str::ends_with`. -/
def strEndsWith (s suf : String) : Bool := suf.data.isSuffixOf s.data

/-- Rust `str::contains(char)`. -/
def strContainsChar (s : String) (c : Char) : Bool := s.data.contains c

/-- Rust `str::len` (character count; byte count on ASCII input). -/
def strLen (s : String) : Nat := s.data.length

/-- Rust slice `&s[n..]` on ASCII input. -/
def strDropChars (s : String) (n : Nat) : String := ⟨s.data.drop n⟩

/-- Rust `str::trim_start_matches(char)`: repeatedly strip the character. -/
def strTrimStartChar (s : String) (c : Char) : String :=
  ⟨s.data.dropWhile (fun x => x = c)⟩

/-- Splitting a character list at every occurrence of a separator
character; mirrors Rust `str::split(char)`. -/
def charSplit (c : Char) : List Char → List (List Char)
  | [] => [[]]
  | x :: xs =>
    if x = c then [] :: charSplit c xs
    else
      match charSplit c xs with
      | [] => [[x]]
      | h :: t => (x :: h) :: t

/-- Rust `str::split(char)`, collected to a list. -/
def strSplitChar (s : String) (c : Char) : List String :=
  (charSplit c s.data).map (fun l => ⟨l⟩)

/-- Rust `Path::extension`, applied to a file name: the portion after the
last `.`, provided that dot is not the leading character of the name;
`none` for dotless names and names whose only dot leads them. -/
def rustExtension (name : String) : Option String :=
  let rev := name.data.reverse
  if rev.contains '.' then
    let extRev := rev.takeWhile (fun c => c ≠ '.')
    if name.data.length - extRev.length - 1 = 0 then none
    else some ⟨extRev.reverse⟩
  else none

/-- `matches_glob_pattern` from src/core.rs: `"*"` matches everything; a
pattern splitting into exactly two pieces around `*` matches by
prefix/suffix; anything else requires literal equality. -/
def matches_glob_pattern (name pat : String) : Bool :=
  if pat = "*" then true
  else if strContainsChar pat '*' then
    let parts := strSplitChar pat '*'
    if parts.length = 2 then
      strStartsWith name (parts.headD "") && strEndsWith name (parts.getD 1 "")
    else name = pat
  else name = pat

namespace Core

/-- `is_supported_archive` from src/core.rs: true when the lowercased
extension is zip/tar/gz/tgz, otherwise when the lowercased file name ends
with `.tar.gz`, `.tar.bz2` or `.tar.xz`. -/
def is_supported_archive (name : String) : Bool :=
  let extMatch :=
    match rustExtension name with
    | some ext =>
      let e := lowerStr ext
      e = "zip" || e = "tar" || e = "gz" || e = "tgz"
    | none => false
  if extMatch then true
  else
    let nl := lowerStr name
    strEndsWith nl ".tar.gz" || strEndsWith nl ".tar.bz2" ||
    strEndsWith nl ".tar.xz"

end Core

namespace Archive

/-- `is_supported_archive` from src/archive.rs: a plain case-insensitive
suffix test against the six supported archive endings. -/
def is_supported_archive (name : String) : Bool :=
  let nl := lowerStr name
  strEndsWith nl ".zip" || strEndsWith nl ".tar" || strEndsWith nl ".tar.gz" ||
  strEndsWith nl ".tgz" || strEndsWith nl ".tar.bz2" || strEndsWith nl ".tbz2"

/-- The two archive handler variants of src/archive.rs. -/
inductive HandlerKind
  | zip
  | tar
deriving Repr, DecidableEq

/-- `create_archive_handler` from src/archive.rs, acting on the archive's
file name (the Rust code reads the extension and file name of the path,
both determined by the final component). -/
def create_archive_handler (name : String) : Except GCError HandlerKind :=
  let extension := lowerStr ((rustExtension name).getD "")
  if extension = "zip" then .ok .zip
  else if extension = "tar" || extension = "tgz" || extension = "gz" then
    let nl := lowerStr name
    if strEndsWith nl ".tar.gz" || strEndsWith nl ".tgz" ||
       strEndsWith nl ".tar.bz2" || strEndsWith nl ".tbz2" ||
       strEndsWith nl ".tar" then
      .ok .tar
    else .error (.Archive ("Unsupported archive format: " ++ nl))
  else .error (.Archive ("Unsupported archive format: " ++ extension))

end Archive

/-- Character-list comparison; models the byte-wise `Ord` on Rust strings
(identical on ASCII input): `charListLe a b` is true when `a ≤ b`. -/
def charListLe : List Char → List Char → Bool
  | [], _ => true
  | _ :: _, [] => false
  | a :: as, b :: bs => if a < b then true else if b < a then false else charListLe as bs

/-- Ordered insertion used to model Rust's stable `sort_by`: `a` is placed
before the first element `b` with `le a b`; on ties the earlier element
keeps its earlier position, which is exactly stability. -/
def orderedInsertBy (le : α → α → Bool) (a : α) : List α → List α
  | [] => [a]
  | b :: l => if le a b then a :: b :: l else b :: orderedInsertBy le a l

/-- Stable sort by a boolean `≤`-style comparator; models `sort_by` with a
comparator `cmp` via `le a b := cmp a b ≠ Greater`. -/
def sortBy (le : α → α → Bool) : List α → List α
  | [] => []
  | a :: l => orderedInsertBy le a (sortBy le l)

/-- One filesystem row of the pane listing (src/core.rs `FileEntry`);
`modified` is seconds since the epoch. -/
structure FileEntry where
  name : String
  path : FPath
  is_dir : Bool
  is_archive : Bool
  size : Nat
  modified : Nat
  permissions : String
deriving Repr, DecidableEq

/-- One archive member row (src/core.rs `ArchiveEntry`). -/
structure ArchiveEntry where
  name : String
  path : String
  is_dir : Bool
  size : Nat
  modified : Nat
deriving Repr, DecidableEq

/-- src/core.rs `ArchiveContext`. -/
structure ArchiveContext where
  archive_path : FPath
  virtual_path : String
  entries : List ArchiveEntry
deriving Repr, DecidableEq

/-- src/core.rs `PaneState`; the `HashSet<usize>` of selections is modelled
as a duplicate-free list whose membership is the set. -/
structure PaneState where
  current_path : FPath
  entries : List FileEntry
  cursor_index : Nat
  scroll_offset : Nat
  selected_indices : List Nat
  archive_context : Option ArchiveContext
deriving Repr, DecidableEq

/-- `HashSet::insert`. -/
def hsInsert (s : List Nat) (i : Nat) : List Nat := if i ∈ s then s else i :: s

/-- `HashSet::remove`. -/
def hsRemove (s : List Nat) (i : Nat) : List Nat := s.filter (fun j => j ≠ i)

/-- The synthetic parent-directory entry pushed by `refresh`. -/
def parentEntryFor (par : FPath) : FileEntry :=
  { name := "..", path := par, is_dir := true, is_archive := false,
    size := 0, modified := 0, permissions := "drwxrwxrwx" }

/-- One directory child as delivered by `fs::read_dir` plus its metadata
(src/core.rs `refresh` loop body inputs). -/
structure RawChild where
  name : String
  is_dir : Bool
  size : Nat
  modified : Nat
  permissions : String
deriving Repr, DecidableEq

/-- The outcome of `fs::read_dir`: either the whole call fails, or it
yields a sequence of children each of which may itself fail (covering both
a failing `entry` and a failing `entry.metadata()`). -/
abbrev DirListing := Except String (List (Except String RawChild))

/-- Building the `FileEntry` for one child, as the `refresh` loop does:
`is_archive` comes from `is_supported_archive` on the child's path, whose
extension and file name are those of the child's name. -/
def childEntry (base : FPath) (c : RawChild) : FileEntry :=
  { name := c.name, path := base ++ [c.name], is_dir := c.is_dir,
    is_archive := Core.is_supported_archive c.name, size := c.size,
    modified := c.modified, permissions := c.permissions }

/-- The `refresh` child loop: push converted children onto the already
accumulated entries until a child slot fails; a failure returns the
entries accumulated so far together with the error (the Rust loop has
already mutated `self.entries` when it propagates the error). -/
def pushChildren (base : FPath) (acc : List FileEntry) :
    List (Except String RawChild) → Except (List FileEntry × String) (List FileEntry)
  | [] => .ok acc
  | .error e :: _ => .error (acc, e)
  | .ok c :: rest => pushChildren base (acc ++ [childEntry base c]) rest

/-- The `refresh` sort comparator as a boolean `≤`: `..` first, then
directories before files, then case-insensitive name order. -/
def refreshLe (a b : FileEntry) : Bool :=
  if a.name = ".." then true
  else if b.name = ".." then false
  else if a.is_dir && !b.is_dir then true
  else if !a.is_dir && b.is_dir then false
  else charListLe (lowerStr a.name).data (lowerStr b.name).data

/-- `PaneState::refresh` from src/core.rs: clear the entries, push the
synthetic parent when not at the root, read the directory (any failure
propagates, leaving the partially rebuilt entries in place), sort, reset
an out-of-range cursor to 0 and drop out-of-range selections.  The second
component is the returned error, with the first component the pane as the
mutated `self` leaves it. -/
def PaneState.refresh (p : PaneState) (listing : DirListing) :
    PaneState × Option GCError :=
  let withParent : List FileEntry :=
    match fpathParent p.current_path with
    | some par => if par ≠ p.current_path then [parentEntryFor par] else []
    | none => []
  match listing with
  | .error e => ({ p with entries := withParent }, some (.Io e))
  | .ok kids =>
    match pushChildren p.current_path withParent kids with
    | .error (acc, e) => ({ p with entries := acc }, some (.Io e))
    | .ok acc =>
      let sorted := sortBy refreshLe acc
      let ci := if p.cursor_index ≥ sorted.length then 0 else p.cursor_index
      let sel := p.selected_indices.filter (fun i => i < sorted.length)
      ({ p with entries := sorted, cursor_index := ci, selected_indices := sel },
       none)

/-- `PaneState::cursor_up`. -/
def PaneState.cursor_up (p : PaneState) (viewportHeight : Nat) : PaneState :=
  let _ := viewportHeight
  if p.cursor_index > 0 then { p with cursor_index := p.cursor_index - 1 } else p

/-- `PaneState::cursor_down` (the bound uses `saturating_sub`, which is
plain truncated subtraction on `Nat`). -/
def PaneState.cursor_down (p : PaneState) (viewportHeight : Nat) : PaneState :=
  let _ := viewportHeight
  if p.cursor_index < p.entries.length - 1 then
    { p with cursor_index := p.cursor_index + 1 }
  else p

/-- `PaneState::page_up`. -/
def PaneState.page_up (p : PaneState) (viewportHeight : Nat) : PaneState :=
  let pageSize := max (viewportHeight - 2) 1
  { p with cursor_index := p.cursor_index - pageSize }

/-- `PaneState::page_down`. -/
def PaneState.page_down (p : PaneState) (viewportHeight : Nat) : PaneState :=
  let pageSize := max (viewportHeight - 2) 1
  { p with cursor_index := min (p.cursor_index + pageSize) (p.entries.length - 1) }

/-- `PaneState::cursor_home`. -/
def PaneState.cursor_home (p : PaneState) (viewportHeight : Nat) : PaneState :=
  let _ := viewportHeight
  { p with cursor_index := 0 }

/-- `PaneState::cursor_end`. -/
def PaneState.cursor_end (p : PaneState) (viewportHeight : Nat) : PaneState :=
  let _ := viewportHeight
  { p with cursor_index := p.entries.length - 1 }

/-- `PaneState::enter_directory`: only when the target is a directory,
reset position and selection and refresh. -/
def PaneState.enter_directory (p : PaneState) (newPath : FPath) (isDir : Bool)
    (listing : DirListing) : PaneState × Option GCError :=
  if isDir then
    let p1 := { p with current_path := newPath, cursor_index := 0,
                       scroll_offset := 0, selected_indices := [] }
    p1.refresh listing
  else (p, none)

/-- `PaneState::toggle_selection`. -/
def PaneState.toggle_selection (p : PaneState) : PaneState :=
  if p.cursor_index < p.entries.length then
    if p.cursor_index ∈ p.selected_indices then
      { p with selected_indices := hsRemove p.selected_indices p.cursor_index }
    else
      { p with selected_indices := hsInsert p.selected_indices p.cursor_index }
  else p

/-- The `select_all` insertion loop over `0..entries.len()`. -/
def selectAllGo : List FileEntry → Nat → List Nat
  | [], _ => []
  | e :: rest, i =>
    if e.name ≠ ".." then i :: selectAllGo rest (i + 1)
    else selectAllGo rest (i + 1)

/-- `PaneState::select_all`: clear, then select every non-parent index. -/
def PaneState.select_all (p : PaneState) : PaneState :=
  { p with selected_indices := selectAllGo p.entries 0 }

/-- `PaneState::deselect_all`. -/
def PaneState.deselect_all (p : PaneState) : PaneState :=
  { p with selected_indices := [] }

/-- The `select_by_pattern` loop over the enumerated entries: skip the
parent, insert every matching index and count every match. -/
def selectGo (pat : String) : List FileEntry → Nat → List Nat → Nat → List Nat × Nat
  | [], _, sel, count => (sel, count)
  | e :: rest, i, sel, count =>
    if e.name = ".." then selectGo pat rest (i + 1) sel count
    else if matches_glob_pattern e.name pat then
      selectGo pat rest (i + 1) (hsInsert sel i) (count + 1)
    else selectGo pat rest (i + 1) sel count

/-- `PaneState::select_by_pattern` (the Rust function always returns
`Ok(count)`; the count is the second component). -/
def PaneState.select_by_pattern (p : PaneState) (pat : String) : PaneState × Nat :=
  let r := selectGo pat p.entries 0 p.selected_indices 0
  ({ p with selected_indices := r.1 }, r.2)

/-- The `list_entries` sort comparator of both handlers as a boolean `≤`:
directories before files, then byte-wise name order. -/
def archiveEntryLe (a b : ArchiveEntry) : Bool :=
  if a.is_dir && !b.is_dir then true
  else if !a.is_dir && b.is_dir then false
  else charListLe a.name.data b.name.data

/-- The tail of `dedup_by`: drop every element whose name equals the last
retained element's name. -/
def dedupGo (prev : ArchiveEntry) : List ArchiveEntry → List ArchiveEntry
  | [] => []
  | y :: ys => if y.name = prev.name then dedupGo prev ys else y :: dedupGo y ys

/-- Rust `Vec::dedup_by` over adjacent same-name entries (keeps the first
of each run). -/
def dedupByName : List ArchiveEntry → List ArchiveEntry
  | [] => []
  | x :: xs => x :: dedupGo x xs

/-- One zip container member as iterated by `ZipArchive::by_index`:
its stored path and decompressed size. -/
structure ZipMember where
  name : String
  size : Nat
deriving Repr, DecidableEq

/-- The per-member body of `ZipHandler::list_entries`: keep the member
when its path extends the virtual-path prefix, the remainder is nonempty,
and — after dropping leading separators — it has one segment, or two with
the second empty (a directory marker).  The zip branch derives `is_dir`
from a trailing slash and stores the constant fallback timestamp
(2000-01-01, 946684800s) the source always lands on. -/
def zipChildOf (pfx : String) (m : ZipMember) : Option ArchiveEntry :=
  if strStartsWith m.name pfx then
    let relativeName := strDropChars m.name (strLen pfx)
    if relativeName = "" then none
    else
      let pathParts := strSplitChar (strTrimStartChar relativeName '/') '/'
      if pathParts.length = 1 ∨ (pathParts.length = 2 ∧ pathParts.getD 1 "" = "") then
        some { name := pathParts.headD "", path := m.name,
               is_dir := strEndsWith m.name "/", size := m.size,
               modified := 946684800 }
      else none
  else none

namespace Zip

/-- `ZipHandler::list_entries` from src/archive.rs: filter members to the
one-level children of the virtual path, then sort (directories first, then
name) and remove adjacent same-name duplicates. -/
def list_entries (members : List ZipMember) (virtual_path : String) :
    List ArchiveEntry :=
  let pfx := if virtual_path = "" then "" else virtual_path
  dedupByName (sortBy archiveEntryLe (members.filterMap (zipChildOf pfx)))

end Zip

/-- One tar container member as iterated by `Archive::entries`: its path,
header directory flag, size and mtime. -/
structure TarMember where
  name : String
  is_dir : Bool
  size : Nat
  mtime : Nat
deriving Repr, DecidableEq

/-- The per-member body of `TarHandler::list_entries`; identical child
selection to the zip branch, with `is_dir` and the timestamp taken from
the tar header. -/
def tarChildOf (pfx : String) (m : TarMember) : Option ArchiveEntry :=
  if strStartsWith m.name pfx then
    let relativeName := strDropChars m.name (strLen pfx)
    if relativeName = "" then none
    else
      let pathParts := strSplitChar (strTrimStartChar relativeName '/') '/'
      if pathParts.length = 1 ∨ (pathParts.length = 2 ∧ pathParts.getD 1 "" = "") then
        some { name := pathParts.headD "", path := m.name,
               is_dir := m.is_dir, size := m.size, modified := m.mtime }
      else none
  else none

namespace Tar

/-- `TarHandler::list_entries` from src/archive.rs. -/
def list_entries (members : List TarMember) (virtual_path : String) :
    List ArchiveEntry :=
  let pfx := if virtual_path = "" then "" else virtual_path
  dedupByName (sortBy archiveEntryLe (members.filterMap (tarChildOf pfx)))

end Tar

/-- An abstract filesystem: a file with a byte size, or a directory with
an ordered child list (the order `fs::read_dir` yields). -/
inductive FsTree
  | file (size : Nat)
  | dir (children : List (String × FsTree))

/-- Find a directory child by name. -/
def findChild (cs : List (String × FsTree)) (c : String) : Option FsTree :=
  match cs.find? (fun x => x.1 = c) with
  | some x => some x.2
  | none => none

/-- Resolve a path in the tree. -/
def FsTree.lookup : FsTree → FPath → Option FsTree
  | t, [] => some t
  | .file _, _ :: _ => none
  | .dir cs, c :: rest =>
    match findChild cs c with
    | some t => t.lookup rest
    | none => none

/-- Rust `Path::is_dir` against the abstract filesystem. -/
def FsTree.isDirAt (t : FsTree) (p : FPath) : Bool :=
  match t.lookup p with
  | some (.dir _) => true
  | _ => false

/-- Rust `Path::is_file` against the abstract filesystem. -/
def FsTree.isFileAt (t : FsTree) (p : FPath) : Bool :=
  match t.lookup p with
  | some (.file _) => true
  | _ => false

/-- Remove the binding at a path (no-op when the path is absent or is the
root; the callers check existence first). -/
def FsTree.removeAt : FsTree → FPath → FsTree
  | t, [] => t
  | .file s, _ :: _ => .file s
  | .dir cs, c :: rest =>
    match rest with
    | [] => .dir (cs.filter (fun x => x.1 ≠ c))
    | _ :: _ =>
      .dir (cs.map (fun x => if x.1 = c then (x.1, x.2.removeAt rest) else x))

/-- `fs::remove_file`: succeeds exactly on an existing non-root file (the
operating system refuses to remove the filesystem root). -/
def remove_file (fs : FsTree) (p : FPath) : Except GCError FsTree :=
  if p ≠ [] ∧ fs.isFileAt p then .ok (fs.removeAt p)
  else .error (.Io "remove_file failed")

/-- `fs::remove_dir_all`: succeeds exactly on an existing non-root
directory (the operating system refuses to remove the filesystem root). -/
def remove_dir_all (fs : FsTree) (p : FPath) : Except GCError FsTree :=
  if p ≠ [] ∧ fs.isDirAt p then .ok (fs.removeAt p)
  else .error (.Io "remove_dir_all failed")

mutual

/-- Total byte size of a subtree (what the recursive `get_path_size` walk
sums for an existing node). -/
def sizeOfTree : FsTree → Nat
  | .file s => s
  | .dir cs => sizeOfForest cs

/-- Total byte size of a child list. -/
def sizeOfForest : List (String × FsTree) → Nat
  | [] => 0
  | c :: rest => sizeOfTree c.2 + sizeOfForest rest

end

/-- `get_path_size` from src/core.rs: a file's length, a directory's
recursive content size, and 0 for a path that exists as neither. -/
def get_path_size (fs : FsTree) (p : FPath) : Nat :=
  match fs.lookup p with
  | some (.file s) => s
  | some (.dir cs) => sizeOfForest cs
  | none => 0

/-- `calculate_total_size` from src/core.rs. -/
def calculate_total_size (fs : FsTree) (sources : List FPath) : Nat :=
  sources.foldl (fun acc p => acc + get_path_size fs p) 0

/-- src/core.rs `OperationType`. -/
inductive OperationType
  | Copy
  | Move
  | Delete
deriving Repr, DecidableEq

/-- src/core.rs `FileOperation`. -/
structure FileOperation where
  operation_type : OperationType
  source_files : List FPath
  destination : FPath
  total_size : Nat
  processed_size : Nat
  current_file : Option String
  completed : Bool
  cancelled : Bool
deriving Repr, DecidableEq

/-- `copy_files` from src/core.rs (sources given by their paths). -/
def copy_files (fs : FsTree) (sources : List FPath) (destination : FPath) :
    FileOperation :=
  { operation_type := .Copy, source_files := sources, destination := destination,
    total_size := calculate_total_size fs sources, processed_size := 0,
    current_file := none, completed := false, cancelled := false }

/-- `move_files` from src/core.rs. -/
def move_files (fs : FsTree) (sources : List FPath) (destination : FPath) :
    FileOperation :=
  { operation_type := .Move, source_files := sources, destination := destination,
    total_size := calculate_total_size fs sources, processed_size := 0,
    current_file := none, completed := false, cancelled := false }

/-- `delete_files` from src/core.rs (`destination` is the empty path). -/
def delete_files (fs : FsTree) (sources : List FPath) : FileOperation :=
  { operation_type := .Delete, source_files := sources, destination := [],
    total_size := calculate_total_size fs sources, processed_size := 0,
    current_file := none, completed := false, cancelled := false }

/-- `fs::create_dir_all`: create every missing directory along the path;
fails when a file stands in the way. -/
def FsTree.createDirAll : FsTree → FPath → Option FsTree
  | .file _, [] => none
  | .dir cs, [] => some (.dir cs)
  | .file _, _ :: _ => none
  | .dir cs, c :: rest =>
    match findChild cs c with
    | some t =>
      match t.createDirAll rest with
      | some t' => some (.dir (cs.map (fun x => if x.1 = c then (c, t') else x)))
      | none => none
    | none =>
      match (FsTree.dir []).createDirAll rest with
      | some t' => some (.dir (cs ++ [(c, t')]))
      | none => none

/-- Write a file of the given size at a path whose parent directory
exists; fails when a directory occupies the path or the parent chain is
broken (`File::create` behaviour). -/
def FsTree.setFileAt : FsTree → FPath → Nat → Option FsTree
  | _, [], _ => none
  | .file _, _ :: _, _ => none
  | .dir cs, c :: rest, sz =>
    match rest with
    | [] =>
      match findChild cs c with
      | some (.dir _) => none
      | some (.file _) =>
        some (.dir (cs.map (fun x => if x.1 = c then (c, .file sz) else x)))
      | none => some (.dir (cs ++ [(c, .file sz)]))
    | _ :: _ =>
      match findChild cs c with
      | some t =>
        match t.setFileAt rest sz with
        | some t' => some (.dir (cs.map (fun x => if x.1 = c then (c, t') else x)))
        | none => none
      | none => none

/-- The environment that may set the operation's one-way `cancelled` flag:
`sched n = true` means the flag is observed set at the n-th cooperative
checkpoint (the source checks the flag per source item and per buffer
chunk; the setter — e.g. the UI thread of the spec's cancellation design —
lives outside the engine). -/
abbrev CancelSchedule := Nat → Bool

/-- Apply the environment at one checkpoint, just before the engine reads
`operation.cancelled`. -/
def pollCancel (sched : CancelSchedule) (t : Nat) (op : FileOperation) :
    FileOperation :=
  if sched t then { op with cancelled := true } else op

/-- The 64 KiB buffer loop of `copy_file_with_progress`, driven by a fuel
counter so the recursion is structural: at each chunk, check `cancelled`,
read up to `64 * 1024` bytes, stop on an empty read, otherwise account the
chunk.  Returns the operation, the bytes written to the destination and
the next checkpoint index. -/
def copyChunksFuel (sched : CancelSchedule) :
    Nat → Nat → Nat → FileOperation → Nat → FileOperation × Nat × Nat
  | 0, _, t, op, written => (op, written, t)
  | fuel + 1, remaining, t, op, written =>
    let op1 := pollCancel sched t op
    if op1.cancelled then (op1, written, t + 1)
    else if min remaining (64 * 1024) = 0 then (op1, written, t + 1)
    else
      copyChunksFuel sched fuel (remaining - min remaining (64 * 1024)) (t + 1)
        { op1 with processed_size := op1.processed_size + min remaining (64 * 1024) }
        (written + min remaining (64 * 1024))

/-- The buffer loop itself: a read of a `remaining`-byte file exits after
at most `remaining + 1` iterations (every non-final chunk moves at least
one byte), so that much fuel makes `copyChunksFuel` the exact loop. -/
def copyChunksGo (sched : CancelSchedule) (remaining t : Nat)
    (op : FileOperation) (written : Nat) : FileOperation × Nat × Nat :=
  copyChunksFuel sched (remaining + 1) remaining t op written

/-- The body of `copy_file_with_progress` after the source file is open:
truncate the destination (`File::create`), run the chunk loop, leaving the
bytes written so far in the destination (also on cancellation). -/
def copyFileOpened (sched : CancelSchedule) (srcSize : Nat) (dst : FPath)
    (t : Nat) (op : FileOperation) (fs : FsTree) :
    (FileOperation × FsTree × Option GCError) × Nat :=
  match fs.setFileAt dst 0 with
  | none => ((op, fs, some (.Io "File::create failed")), t)
  | some fs2 =>
    let r := copyChunksGo sched srcSize t op 0
    match fs2.setFileAt dst r.2.1 with
    | none => ((r.1, fs2, some (.Io "write failed")), r.2.2)
    | some fs3 => ((r.1, fs3, none), r.2.2)

/-- `copy_file_with_progress` from src/core.rs: create the destination's
parent directories, open the source (failing unless it is a file), then
stream it chunk-wise. -/
def copy_file_with_progress (sched : CancelSchedule) (src dst : FPath)
    (t : Nat) (op : FileOperation) (fs : FsTree) :
    (FileOperation × FsTree × Option GCError) × Nat :=
  let fsp := match fpathParent dst with
    | some par => fs.createDirAll par
    | none => some fs
  match fsp with
  | none => ((op, fs, some (.Io "create_dir_all failed")), t)
  | some fs1 =>
    match fs1.lookup src with
    | some (.file srcSize) => copyFileOpened sched srcSize dst t op fs1
    | _ => ((op, fs1, some (.Io "File::open failed")), t)

mutual

/-- `copy_directory_recursive` from src/core.rs, walking the source
subtree as `read_dir` delivered it (faithful whenever the destination does
not overlap the sources): create the destination directory, then copy each
child, checking `cancelled` before each one. -/
def copy_directory_recursive (sched : CancelSchedule)
    (children : List (String × FsTree)) (dst : FPath) (t : Nat)
    (op : FileOperation) (fs : FsTree) :
    (FileOperation × FsTree × Option GCError) × Nat :=
  match fs.createDirAll dst with
  | none => ((op, fs, some (.Io "create_dir_all failed")), t)
  | some fs1 => copyDirLoop sched children dst t op fs1

/-- The child loop of `copy_directory_recursive`. -/
def copyDirLoop (sched : CancelSchedule) (children : List (String × FsTree))
    (dst : FPath) (t : Nat) (op : FileOperation) (fs : FsTree) :
    (FileOperation × FsTree × Option GCError) × Nat :=
  match children with
  | [] => ((op, fs, none), t)
  | (name, child) :: rest =>
    let op1 := pollCancel sched t op
    if op1.cancelled then ((op1, fs, none), t + 1)
    else
      let r :=
        match child with
        | .dir cs => copy_directory_recursive sched cs (dst ++ [name]) (t + 1) op1 fs
        | .file sz => copyFileOpened sched sz (dst ++ [name]) (t + 1) op1 fs
      match r with
      | ((op', fs', some e), t') => ((op', fs', some e), t')
      | ((op', fs', none), t') => copyDirLoop sched rest dst t' op' fs'

end

/-- The source loop of `execute_copy_operation`: check `cancelled` per
source, derive the file name (failing on a root path), record
`current_file`, copy the source to `destination/name`, propagate the first
failure; `completed` is set whenever the loop reaches its end, also when
cancellation broke it. -/
def execute_copy_loop (sched : CancelSchedule) :
    List FPath → Nat → FileOperation → FsTree →
    (FileOperation × FsTree × Option GCError) × Nat
  | [], t, op, fs => (({ op with completed := true }, fs, none), t)
  | sp :: rest, t, op, fs =>
    let op1 := pollCancel sched t op
    if op1.cancelled then (({ op1 with completed := true }, fs, none), t + 1)
    else
      match fpathFileName sp with
      | none => ((op1, fs, some (.FileOperation "Invalid source file name")), t + 1)
      | some fileName =>
        let op2 := { op1 with current_file := some fileName }
        let destPath := op2.destination ++ [fileName]
        let r :=
          if fs.isDirAt sp then
            match fs.lookup sp with
            | some (.dir cs) =>
              copy_directory_recursive sched cs destPath (t + 1) op2 fs
            | _ => ((op2, fs, some (.Io "read_dir failed")), t + 1)
          else copy_file_with_progress sched sp destPath (t + 1) op2 fs
        match r with
        | ((op', fs', some e), t') => ((op', fs', some e), t')
        | ((op', fs', none), t') => execute_copy_loop sched rest t' op' fs'

/-- `execute_copy_operation` from src/core.rs. -/
def execute_copy_operation (sched : CancelSchedule) (t : Nat)
    (op : FileOperation) (fs : FsTree) :
    (FileOperation × FsTree × Option GCError) × Nat :=
  execute_copy_loop sched op.source_files t op fs

/-- The original-removal loop of `execute_move_operation`: remove each
source in order (recursively for directories); the first failure is
returned and the remaining removals are skipped. -/
def removeOriginalsGo : List FPath → FsTree → FsTree × Option GCError
  | [], fs => (fs, none)
  | sp :: rest, fs =>
    let r := if fs.isDirAt sp then remove_dir_all fs sp else remove_file fs sp
    match r with
    | .error e => (fs, some e)
    | .ok fs' => removeOriginalsGo rest fs'

/-- `execute_move_operation` from src/core.rs: run the copy phase; then,
only when the `cancelled` flag is not set, remove every original. -/
def execute_move_operation (sched : CancelSchedule) (t : Nat)
    (op : FileOperation) (fs : FsTree) :
    (FileOperation × FsTree × Option GCError) × Nat :=
  match execute_copy_operation sched t op fs with
  | ((op', fs', some e), t') => ((op', fs', some e), t')
  | ((op', fs', none), t') =>
    if !op'.cancelled then
      let r := removeOriginalsGo op'.source_files fs'
      ((op', r.1, r.2), t')
    else ((op', fs', none), t')

/-- The source loop of `execute_delete_operation`: check `cancelled` per
source, record `current_file`, remove the source, then add
`get_path_size(source)` — computed on the filesystem AFTER the removal —
to `processed_size`. -/
def execute_delete_loop (sched : CancelSchedule) :
    List FPath → Nat → FileOperation → FsTree →
    (FileOperation × FsTree × Option GCError) × Nat
  | [], t, op, fs => (({ op with completed := true }, fs, none), t)
  | sp :: rest, t, op, fs =>
    let op1 := pollCancel sched t op
    if op1.cancelled then (({ op1 with completed := true }, fs, none), t + 1)
    else
      match fpathFileName sp with
      | none => ((op1, fs, some (.FileOperation "Invalid source file name")), t + 1)
      | some fileName =>
        let op2 := { op1 with current_file := some fileName }
        let r := if fs.isDirAt sp then remove_dir_all fs sp else remove_file fs sp
        match r with
        | .error e => ((op2, fs, some e), t + 1)
        | .ok fs' =>
          execute_delete_loop sched rest (t + 1)
            { op2 with processed_size := op2.processed_size + get_path_size fs' sp }
            fs'

/-- `execute_delete_operation` from src/core.rs. -/
def execute_delete_operation (sched : CancelSchedule) (t : Nat)
    (op : FileOperation) (fs : FsTree) :
    (FileOperation × FsTree × Option GCError) × Nat :=
  execute_delete_loop sched op.source_files t op fs

/-- `execute_operation` from src/core.rs. -/
def execute_operation (sched : CancelSchedule) (t : Nat)
    (op : FileOperation) (fs : FsTree) :
    (FileOperation × FsTree × Option GCError) × Nat :=
  match op.operation_type with
  | .Copy => execute_copy_operation sched t op fs
  | .Move => execute_move_operation sched t op fs
  | .Delete => execute_delete_operation sched t op fs

/-! ### Proof-layer definitions: operation shape, loop continuations,
specification-side predicates, and the concrete fixtures of the claims. -/

def opShape (op : FileOperation) : OperationType × List FPath × FPath × Nat :=
  (op.operation_type, op.source_files, op.destination, op.total_size)

/-- The continuation of one `execute_copy_loop` step: propagate a failure,
otherwise loop on the remaining sources. -/
def afterCopyStep (sched : CancelSchedule) (rest : List FPath) :
    (FileOperation × FsTree × Option GCError) × Nat →
    (FileOperation × FsTree × Option GCError) × Nat
  | ((o, f, some er), tt) => ((o, f, some er), tt)
  | ((o, f, none), tt) => execute_copy_loop sched rest tt o f

/-- Concrete filesystem for the engine claims: three files at the root. -/
def fsW : FsTree := .dir [("a", .file 100), ("b", .file 200), ("c", .file 300)]

/-- A move of `a` and `b` to `dest`, built by `move_files` over `fsW`. -/
def mvW : FileOperation := move_files fsW [["a"], ["b"]] ["dest"]

/-- A copy of all three files to `dest`, built by `copy_files` over `fsW`. -/
def cpW : FileOperation := copy_files fsW [["a"], ["b"], ["c"]] ["dest"]

/-- The environment sets `cancelled` at checkpoint 2, which is reached
while the first source's chunk loop is finishing. -/
def schedW : CancelSchedule := fun n => n = 2

/-- Concrete filesystem for the Delete claim: one 13-byte file. -/
def fsDelW : FsTree := .dir [("a.txt", .file 13)]

/-- The delete operation over that file, built by `delete_files`. -/
def delW : FileOperation := delete_files fsDelW [["a.txt"]]

/-- The one-level-child rule both `list_entries` implementations apply to
one member path: it extends the virtual-path prefix, the remainder is
nonempty, and after dropping leading separators it has one segment, or two
with an empty second (a directory marker); the child's listed name is the
first segment. -/
def oneLevelChild (vp memberPath n : String) : Prop :=
  strStartsWith memberPath vp = true ∧
  strDropChars memberPath (strLen vp) ≠ "" ∧
  ((strSplitChar (strTrimStartChar (strDropChars memberPath (strLen vp)) '/') '/').length = 1 ∨
   ((strSplitChar (strTrimStartChar (strDropChars memberPath (strLen vp)) '/') '/').length = 2 ∧
    (strSplitChar (strTrimStartChar (strDropChars memberPath (strLen vp)) '/') '/').getD 1 "" = "")) ∧
  (strSplitChar (strTrimStartChar (strDropChars memberPath (strLen vp)) '/') '/').headD "" = n

/-- The zip container of the spec's listing example: a directory marker
`docs/`, a file `docs/readme.txt`, and a deeper-nested file
`docs/img/logo.png` (no `docs/img/` marker member). -/
def zmsW : List ZipMember :=
  [{ name := "docs/", size := 0 },
   { name := "docs/readme.txt", size := 5 },
   { name := "docs/img/logo.png", size := 7 }]

/-- The amended `is_archive` rule, following the code: flagged exactly when
the lowercased extension is zip/tar/gz/tgz, or the lowercased name ends
with `.tar.gz`, `.tar.bz2` or `.tar.xz` (so every `.gz` file is flagged,
`.tbz2` files are not). -/
def amended_is_archive (name : String) : Bool :=
  (match rustExtension name with
   | some ext =>
     let e := lowerStr ext
     e = "zip" || e = "tar" || e = "gz" || e = "tgz"
   | none => false) ||
  (strEndsWith (lowerStr name) ".tar.gz" || strEndsWith (lowerStr name) ".tar.bz2" ||
   strEndsWith (lowerStr name) ".tar.xz")

/-- A pane at a non-root directory with no entries yet, used by the
archive-flag counterexample. -/
def pC7 : PaneState :=
  { current_path := ["d"], entries := [], cursor_index := 0, scroll_offset := 0,
    selected_indices := [], archive_context := none }

/-- The raw child record for a plain gzip file. -/
def gzChild : RawChild :=
  { name := "data.gz", is_dir := false, size := 1, modified := 0,
    permissions := "-rw-r--r--" }

/-- The listing containing that single plain gzip file. -/
def gzListing : DirListing := .ok [.ok gzChild]

/-- A pane showing one file at `/home/u`, about to hit a failing refresh. -/
def pC2 : PaneState :=
  { current_path := ["home", "u"],
    entries := [{ name := "a.txt", path := ["home", "u", "a.txt"], is_dir := false,
                  is_archive := false, size := 3, modified := 0,
                  permissions := "-rw-r--r--" }],
    cursor_index := 0, scroll_offset := 0, selected_indices := [],
    archive_context := none }

/-- One plain file entry for the glob-selection example pane. -/
def plainEntry (base : FPath) (n : String) : FileEntry :=
  { name := n, path := base ++ [n], is_dir := false, is_archive := false,
    size := 3, modified := 0, permissions := "-rw-r--r--" }

/-- The glob-selection example pane: `a.txt`, `b.txt`, `c.log`, nothing
selected. -/
def pGlobW : PaneState :=
  { current_path := ["h"],
    entries := [plainEntry ["h"] "a.txt", plainEntry ["h"] "b.txt",
                plainEntry ["h"] "c.log"],
    cursor_index := 0, scroll_offset := 0, selected_indices := [],
    archive_context := none }

/-- One single-step cursor move, with its viewport-height argument. -/
inductive CursorMove
  | up (viewportHeight : Nat)
  | down (viewportHeight : Nat)

/-- Run a sequence of `cursor_up`/`cursor_down` calls. -/
def applyCursorMoves : List CursorMove → PaneState → PaneState
  | [], p => p
  | .up h :: ms, p => applyCursorMoves ms (p.cursor_up h)
  | .down h :: ms, p => applyCursorMoves ms (p.cursor_down h)

/-- The selection invariant: every selected index has an entry. -/
def SelInv (p : PaneState) : Prop := ∀ i ∈ p.selected_indices, i < p.entries.length

/-- One `PaneState` mutation, with the inputs it consumes. -/
inductive PaneOp
  | refreshOp (listing : DirListing)
  | enterDir (newPath : FPath) (isDir : Bool) (listing : DirListing)
  | toggleSel
  | selectAllOp
  | deselectAllOp
  | selectPattern (pat : String)
  | upOp (viewportHeight : Nat)
  | downOp (viewportHeight : Nat)
  | pageUpOp (viewportHeight : Nat)
  | pageDownOp (viewportHeight : Nat)
  | homeOp (viewportHeight : Nat)
  | endOp (viewportHeight : Nat)

/-- Apply one pane operation; the second component is the returned error
for the fallible ones. -/
def applyPaneOp : PaneOp → PaneState → PaneState × Option GCError
  | .refreshOp listing, p => p.refresh listing
  | .enterDir np d listing, p => p.enter_directory np d listing
  | .toggleSel, p => (p.toggle_selection, none)
  | .selectAllOp, p => (p.select_all, none)
  | .deselectAllOp, p => (p.deselect_all, none)
  | .selectPattern pat, p => ((p.select_by_pattern pat).1, none)
  | .upOp h, p => (p.cursor_up h, none)
  | .downOp h, p => (p.cursor_down h, none)
  | .pageUpOp h, p => (p.page_up h, none)
  | .pageDownOp h, p => (p.page_down h, none)
  | .homeOp h, p => (p.cursor_home h, none)
  | .endOp h, p => (p.cursor_end h, none)

/-! ### Theorems. -/

theorem pollCancel_shape (sched : CancelSchedule) (t : Nat) (op : FileOperation) :
    opShape (pollCancel sched t op) = opShape op := by
  unfold pollCancel
  split <;> rfl

theorem copyChunksFuel_shape (sched : CancelSchedule) :
    ∀ (fuel remaining t : Nat) (op : FileOperation) (w : Nat),
      opShape (copyChunksFuel sched fuel remaining t op w).1 = opShape op := by
  intro fuel
  induction fuel with
  | zero => intro remaining t op w; rfl
  | succ fuel ih =>
    intro remaining t op w
    rw [copyChunksFuel]
    by_cases hc : (pollCancel sched t op).cancelled = true
    · rw [if_pos hc]
      exact pollCancel_shape sched t op
    · rw [if_neg hc]
      by_cases hz : min remaining (64 * 1024) = 0
      · rw [if_pos hz]
        exact pollCancel_shape sched t op
      · rw [if_neg hz]
        exact (ih _ _ _ _).trans (pollCancel_shape sched t op)

theorem copyChunksGo_shape (sched : CancelSchedule) :
    ∀ (remaining t : Nat) (op : FileOperation) (w : Nat),
      opShape (copyChunksGo sched remaining t op w).1 = opShape op :=
  fun remaining t op w => copyChunksFuel_shape sched (remaining + 1) remaining t op w

theorem copyFileOpened_shape (sched : CancelSchedule) (srcSize : Nat) (dst : FPath)
    (t : Nat) (op : FileOperation) (fs : FsTree) :
    opShape (copyFileOpened sched srcSize dst t op fs).1.1 = opShape op := by
  unfold copyFileOpened
  split
  · rfl
  · dsimp only
    split
    · exact copyChunksGo_shape sched srcSize t op 0
    · exact copyChunksGo_shape sched srcSize t op 0

theorem copy_file_with_progress_shape (sched : CancelSchedule) (src dst : FPath)
    (t : Nat) (op : FileOperation) (fs : FsTree) :
    opShape (copy_file_with_progress sched src dst t op fs).1.1 = opShape op := by
  unfold copy_file_with_progress
  dsimp only
  split
  · rfl
  · split
    · exact copyFileOpened_shape sched _ dst t op _
    · rfl

theorem copyDirLoop_shape (sched : CancelSchedule) :
    ∀ (children : List (String × FsTree)) (dst : FPath) (t : Nat)
      (op : FileOperation) (fs : FsTree),
      opShape (copyDirLoop sched children dst t op fs).1.1 = opShape op := by
  refine copyDirLoop.induct sched
    (fun cs dst t op fs =>
      opShape (copy_directory_recursive sched cs dst t op fs).1.1 = opShape op)
    (fun cs dst t op fs =>
      opShape (copyDirLoop sched cs dst t op fs).1.1 = opShape op)
    ?_ ?_ ?_ ?_ ?_ ?_
  · intro children dst t op fs hnone
    rw [copy_directory_recursive, hnone]
  · intro children dst t op fs fs3 hsome ih
    rw [copy_directory_recursive, hsome]
    exact ih
  · intro dst t op fs
    rw [copyDirLoop.eq_def]
  · intro dst t op fs name child rest op1 hc
    rw [copyDirLoop.eq_def]
    dsimp only
    rw [if_pos (show (pollCancel sched t op).cancelled = true from hc)]
    exact pollCancel_shape sched t op
  · intro dst t op fs name child rest op1 hc r op' fs' e t' hr ih
    rw [copyDirLoop.eq_def]
    dsimp only
    rw [if_neg (show ¬(pollCancel sched t op).cancelled = true from hc)]
    cases child with
    | dir cs =>
      dsimp only
      rw [show (copy_directory_recursive sched cs (dst ++ [name]) (t + 1)
            (pollCancel sched t op) fs) = ((op', fs', some e), t') from hr]
      have h1 : opShape op' = opShape (pollCancel sched t op) := by
        have h0 : opShape (copy_directory_recursive sched cs (dst ++ [name]) (t + 1)
            (pollCancel sched t op) fs).1.1 = opShape (pollCancel sched t op) := ih
        rw [show (copy_directory_recursive sched cs (dst ++ [name]) (t + 1)
              (pollCancel sched t op) fs) = ((op', fs', some e), t') from hr] at h0
        exact h0
      exact h1.trans (pollCancel_shape sched t op)
    | file sz =>
      dsimp only
      rw [show (copyFileOpened sched sz (dst ++ [name]) (t + 1)
            (pollCancel sched t op) fs) = ((op', fs', some e), t') from hr]
      have h0 := copyFileOpened_shape sched sz (dst ++ [name]) (t + 1)
        (pollCancel sched t op) fs
      rw [show (copyFileOpened sched sz (dst ++ [name]) (t + 1)
            (pollCancel sched t op) fs) = ((op', fs', some e), t') from hr] at h0
      exact h0.trans (pollCancel_shape sched t op)
  · intro dst t op fs name child rest op1 hc r op' fs' t' hr ih ihrest
    rw [copyDirLoop.eq_def]
    dsimp only
    rw [if_neg (show ¬(pollCancel sched t op).cancelled = true from hc)]
    cases child with
    | dir cs =>
      dsimp only
      rw [show (copy_directory_recursive sched cs (dst ++ [name]) (t + 1)
            (pollCancel sched t op) fs) = ((op', fs', none), t') from hr]
      have h1 : opShape op' = opShape (pollCancel sched t op) := by
        have h0 : opShape (copy_directory_recursive sched cs (dst ++ [name]) (t + 1)
            (pollCancel sched t op) fs).1.1 = opShape (pollCancel sched t op) := ih
        rw [show (copy_directory_recursive sched cs (dst ++ [name]) (t + 1)
              (pollCancel sched t op) fs) = ((op', fs', none), t') from hr] at h0
        exact h0
      exact ihrest.trans (h1.trans (pollCancel_shape sched t op))
    | file sz =>
      dsimp only
      rw [show (copyFileOpened sched sz (dst ++ [name]) (t + 1)
            (pollCancel sched t op) fs) = ((op', fs', none), t') from hr]
      have h0 := copyFileOpened_shape sched sz (dst ++ [name]) (t + 1)
        (pollCancel sched t op) fs
      rw [show (copyFileOpened sched sz (dst ++ [name]) (t + 1)
            (pollCancel sched t op) fs) = ((op', fs', none), t') from hr] at h0
      exact ihrest.trans (h0.trans (pollCancel_shape sched t op))

theorem copy_directory_recursive_shape (sched : CancelSchedule)
    (children : List (String × FsTree)) (dst : FPath) (t : Nat)
    (op : FileOperation) (fs : FsTree) :
    opShape (copy_directory_recursive sched children dst t op fs).1.1 = opShape op := by
  rw [copy_directory_recursive]
  split
  · rfl
  · exact copyDirLoop_shape sched children dst t op _

theorem execute_copy_loop_shape (sched : CancelSchedule) :
    ∀ (srcs : List FPath) (t : Nat) (op : FileOperation) (fs : FsTree),
      opShape (execute_copy_loop sched srcs t op fs).1.1 = opShape op := by
  intro srcs t op fs
  induction srcs, t, op, fs using execute_copy_loop.induct sched with
  | case1 t op fs =>
    rw [execute_copy_loop]
    rfl
  | case2 sp rest t op fs op1 hc =>
    rw [execute_copy_loop]
    dsimp only
    rw [if_pos (show (pollCancel sched t op).cancelled = true from hc)]
    exact pollCancel_shape sched t op
  | case3 sp rest t op fs op1 hc hname =>
    rw [execute_copy_loop]
    dsimp only
    rw [if_neg (show ¬(pollCancel sched t op).cancelled = true from hc), hname]
    exact pollCancel_shape sched t op
  | case4 sp rest t op fs op1 hc fileName hname op2 destPath r op' fs' e t' hr =>
    have hunf : execute_copy_loop sched (sp :: rest) t op fs
        = afterCopyStep sched rest r := by
      rw [execute_copy_loop]
      dsimp only
      rw [if_neg (show ¬(pollCancel sched t op).cancelled = true from hc)]
      rw [hname]
      rfl
    rw [hunf, hr]
    dsimp only [afterCopyStep]
    have hr2 : (if fs.isDirAt sp = true then
          match fs.lookup sp with
          | some (FsTree.dir cs) => copy_directory_recursive sched cs destPath (t + 1) op2 fs
          | _ => ((op2, fs, some (GCError.Io "read_dir failed")), t + 1)
        else copy_file_with_progress sched sp destPath (t + 1) op2 fs)
        = ((op', fs', some e), t') := hr
    have hshape : opShape op' = opShape op2 := by
      split at hr2
      · split at hr2
        · rename_i cs hlk
          have h0 := copy_directory_recursive_shape sched cs destPath (t + 1) op2 fs
          rw [hr2] at h0
          exact h0
        · cases hr2
          rfl
      · have h0 := copy_file_with_progress_shape sched sp destPath (t + 1) op2 fs
        rw [hr2] at h0
        exact h0
    exact hshape.trans (pollCancel_shape sched t op)
  | case5 sp rest t op fs op1 hc fileName hname op2 destPath r op' fs' t' hr ih =>
    have hunf : execute_copy_loop sched (sp :: rest) t op fs
        = afterCopyStep sched rest r := by
      rw [execute_copy_loop]
      dsimp only
      rw [if_neg (show ¬(pollCancel sched t op).cancelled = true from hc)]
      rw [hname]
      rfl
    rw [hunf, hr]
    dsimp only [afterCopyStep]
    have hr2 : (if fs.isDirAt sp = true then
          match fs.lookup sp with
          | some (FsTree.dir cs) => copy_directory_recursive sched cs destPath (t + 1) op2 fs
          | _ => ((op2, fs, some (GCError.Io "read_dir failed")), t + 1)
        else copy_file_with_progress sched sp destPath (t + 1) op2 fs)
        = ((op', fs', none), t') := hr
    have hshape : opShape op' = opShape op2 := by
      split at hr2
      · split at hr2
        · rename_i cs hlk
          have h0 := copy_directory_recursive_shape sched cs destPath (t + 1) op2 fs
          rw [hr2] at h0
          exact h0
        · cases hr2
      · have h0 := copy_file_with_progress_shape sched sp destPath (t + 1) op2 fs
        rw [hr2] at h0
        exact h0
    exact ih.trans (hshape.trans (pollCancel_shape sched t op))

theorem execute_copy_operation_shape (sched : CancelSchedule) (t : Nat)
    (op : FileOperation) (fs : FsTree) :
    opShape (execute_copy_operation sched t op fs).1.1 = opShape op :=
  execute_copy_loop_shape sched op.source_files t op fs

theorem findChild_cons (x : String × FsTree) (cs : List (String × FsTree)) (c : String) :
    findChild (x :: cs) c = if x.1 = c then some x.2 else findChild cs c := by
  by_cases h : x.1 = c
  · simp [findChild, List.find?_cons, h]
  · simp [findChild, List.find?_cons, h]

theorem findChild_filterNe_self (cs : List (String × FsTree)) (c : String) :
    findChild (cs.filter (fun x => x.1 ≠ c)) c = none := by
  induction cs with
  | nil => rfl
  | cons hd tl ih =>
    by_cases h : hd.1 = c
    · simpa [List.filter_cons, h] using ih
    · rw [List.filter_cons, if_pos (by simpa using h), findChild_cons, if_neg h]
      exact ih

theorem findChild_filterNe_other (cs : List (String × FsTree)) (c d : String)
    (hdc : d ≠ c) :
    findChild (cs.filter (fun x => x.1 ≠ c)) d = findChild cs d := by
  induction cs with
  | nil => rfl
  | cons hd tl ih =>
    by_cases h : hd.1 = c
    · have h2 : hd.1 ≠ d := fun he => hdc (he.symm.trans h)
      rw [List.filter_cons, if_neg (by simpa using h), findChild_cons, if_neg h2]
      exact ih
    · rw [List.filter_cons, if_pos (by simpa using h), findChild_cons, findChild_cons]
      by_cases h2 : hd.1 = d
      · rw [if_pos h2, if_pos h2]
      · rw [if_neg h2, if_neg h2]
        exact ih

theorem findChild_mapRemove_self (cs : List (String × FsTree)) (c : String)
    (rest : FPath) :
    findChild (cs.map (fun x => if x.1 = c then (x.1, x.2.removeAt rest) else x)) c
      = (findChild cs c).map (fun t => t.removeAt rest) := by
  induction cs with
  | nil => rfl
  | cons hd tl ih =>
    by_cases h : hd.1 = c
    · rw [List.map_cons, if_pos h, findChild_cons, findChild_cons, if_pos h]
      simp [h]
    · rw [List.map_cons, if_neg h, findChild_cons, if_neg h, findChild_cons, if_neg h]
      exact ih

theorem findChild_mapRemove_other (cs : List (String × FsTree)) (c d : String)
    (rest : FPath) (hdc : d ≠ c) :
    findChild (cs.map (fun x => if x.1 = c then (x.1, x.2.removeAt rest) else x)) d
      = findChild cs d := by
  induction cs with
  | nil => rfl
  | cons hd tl ih =>
    by_cases h : hd.1 = c
    · rw [List.map_cons, if_pos h, findChild_cons, findChild_cons]
      have h2 : hd.1 ≠ d := fun he => hdc (he.symm.trans h)
      rw [if_neg (show ¬((hd.1, hd.2.removeAt rest).1 = d) from h2), if_neg h2]
      exact ih
    · rw [List.map_cons, if_neg h, findChild_cons, findChild_cons]
      by_cases h2 : hd.1 = d
      · rw [if_pos h2, if_pos h2]
      · rw [if_neg h2, if_neg h2]
        exact ih

theorem lookup_removeAt_self :
    ∀ (p : FPath) (fs : FsTree), p ≠ [] → (fs.removeAt p).lookup p = none := by
  intro p
  induction p with
  | nil => intro fs h; exact absurd rfl h
  | cons c rest ih =>
    intro fs _
    cases fs with
    | file s => rfl
    | dir cs =>
      cases rest with
      | nil =>
        show FsTree.lookup (.dir (cs.filter (fun x => x.1 ≠ c))) [c] = none
        rw [FsTree.lookup, findChild_filterNe_self]
      | cons d rest' =>
        show FsTree.lookup (.dir (cs.map (fun x =>
          if x.1 = c then (x.1, x.2.removeAt (d :: rest')) else x))) (c :: d :: rest')
          = none
        rw [FsTree.lookup, findChild_mapRemove_self]
        cases hc : findChild cs c with
        | none => rfl
        | some t =>
          simp only [Option.map_some']
          exact ih t (by simp)

theorem lookup_removeAt_none :
    ∀ (q : FPath) (fs : FsTree) (p : FPath),
      fs.lookup q = none → (fs.removeAt p).lookup q = none := by
  intro q
  induction q with
  | nil =>
    intro fs p h
    rw [FsTree.lookup] at h
    exact absurd h (by simp)
  | cons d qrest ih =>
    intro fs p h
    cases fs with
    | file s =>
      cases p with
      | nil => exact h
      | cons c prest => rfl
    | dir cs =>
      cases p with
      | nil => exact h
      | cons c prest =>
        cases prest with
        | nil =>
          show FsTree.lookup (.dir (cs.filter (fun x => x.1 ≠ c))) (d :: qrest) = none
          rw [FsTree.lookup]
          by_cases hdc : d = c
          · subst hdc
            rw [findChild_filterNe_self]
          · rw [findChild_filterNe_other cs c d hdc]
            rw [FsTree.lookup] at h
            exact h
        | cons c2 prest2 =>
          show FsTree.lookup (.dir (cs.map (fun x =>
            if x.1 = c then (x.1, x.2.removeAt (c2 :: prest2)) else x))) (d :: qrest)
            = none
          rw [FsTree.lookup]
          by_cases hdc : d = c
          · subst hdc
            rw [findChild_mapRemove_self]
            rw [FsTree.lookup] at h
            cases hc : findChild cs d with
            | none => rfl
            | some t =>
              simp only [Option.map_some']
              rw [hc] at h
              exact ih t (c2 :: prest2) h
          · rw [findChild_mapRemove_other cs c d _ hdc]
            rw [FsTree.lookup] at h
            exact h

theorem removeStep_ok (fs : FsTree) (sp : FPath) (fs1 : FsTree)
    (h : (if fs.isDirAt sp then remove_dir_all fs sp else remove_file fs sp)
          = .ok fs1) :
    sp ≠ [] ∧ fs1 = fs.removeAt sp := by
  unfold remove_dir_all remove_file at h
  split at h
  · split at h
    · rename_i hcond
      cases h
      exact ⟨hcond.1, rfl⟩
    · cases h
  · split at h
    · rename_i hcond
      cases h
      exact ⟨hcond.1, rfl⟩
    · cases h

theorem removeOriginalsGo_none_mono :
    ∀ (l : List FPath) (fs : FsTree) (q : FPath),
      fs.lookup q = none → (removeOriginalsGo l fs).1.lookup q = none := by
  intro l
  induction l with
  | nil => intro fs q h; exact h
  | cons sp rest ih =>
    intro fs q h
    rw [removeOriginalsGo]
    cases hr : (if fs.isDirAt sp then remove_dir_all fs sp else remove_file fs sp) with
    | error e => exact h
    | ok fs1 =>
      dsimp only
      obtain ⟨-, rfl⟩ := removeStep_ok fs sp fs1 hr
      exact ih _ q (lookup_removeAt_none q fs sp h)

theorem removeOriginalsGo_success_removed :
    ∀ (l : List FPath) (fs fs' : FsTree),
      removeOriginalsGo l fs = (fs', none) →
      ∀ p ∈ l, fs'.lookup p = none := by
  intro l
  induction l with
  | nil => intro fs fs' h p hp; cases hp
  | cons sp rest ih =>
    intro fs fs' h p hp
    rw [removeOriginalsGo] at h
    cases hr : (if fs.isDirAt sp then remove_dir_all fs sp else remove_file fs sp) with
    | error e =>
      rw [hr] at h
      cases h
    | ok fs1 =>
      rw [hr] at h
      dsimp only at h
      obtain ⟨hne, rfl⟩ := removeStep_ok fs sp fs1 hr
      rcases List.mem_cons.mp hp with rfl | hmem
      · have h0 : (fs.removeAt p).lookup p = none := lookup_removeAt_self p fs hne
        have h1 := removeOriginalsGo_none_mono rest (fs.removeAt p) p h0
        rw [h] at h1
        exact h1
      · exact ih _ _ h p hmem

theorem removeOriginalsGo_append (xs : List FPath) (l : List FPath)
    (fs fs1 : FsTree) (h : removeOriginalsGo xs fs = (fs1, none)) :
    removeOriginalsGo (xs ++ l) fs = removeOriginalsGo l fs1 := by
  induction xs generalizing fs with
  | nil =>
    rw [removeOriginalsGo] at h
    cases h
    rfl
  | cons sp rest ih =>
    rw [removeOriginalsGo] at h
    rw [List.cons_append, removeOriginalsGo]
    cases hr : (if fs.isDirAt sp then remove_dir_all fs sp else remove_file fs sp) with
    | error e =>
      rw [hr] at h
      cases h
    | ok fs2 =>
      rw [hr] at h
      dsimp only at h ⊢
      exact ih fs2 h

theorem removeOriginalsGo_failure (xs ys : List FPath) (sp : FPath)
    (fs fs1 : FsTree) (e : GCError)
    (h1 : removeOriginalsGo xs fs = (fs1, none))
    (h2 : (if fs1.isDirAt sp then remove_dir_all fs1 sp else remove_file fs1 sp)
          = .error e) :
    removeOriginalsGo (xs ++ sp :: ys) fs = (fs1, some e) := by
  rw [removeOriginalsGo_append xs (sp :: ys) fs fs1 h1, removeOriginalsGo, h2]

theorem execute_copy_loop_completed (sched : CancelSchedule) :
    ∀ (srcs : List FPath) (t : Nat) (op : FileOperation) (fs : FsTree),
      (execute_copy_loop sched srcs t op fs).1.2.2 = none →
      (execute_copy_loop sched srcs t op fs).1.1.completed = true := by
  intro srcs t op fs
  induction srcs, t, op, fs using execute_copy_loop.induct sched with
  | case1 t op fs =>
    intro _
    rw [execute_copy_loop]
  | case2 sp rest t op fs op1 hc =>
    intro _
    rw [execute_copy_loop]
    dsimp only
    rw [if_pos (show (pollCancel sched t op).cancelled = true from hc)]
  | case3 sp rest t op fs op1 hc hname =>
    intro herr
    rw [execute_copy_loop] at herr
    dsimp only at herr
    rw [if_neg (show ¬(pollCancel sched t op).cancelled = true from hc), hname] at herr
    cases herr
  | case4 sp rest t op fs op1 hc fileName hname op2 destPath r op' fs' e t' hr =>
    intro herr
    have hunf : execute_copy_loop sched (sp :: rest) t op fs
        = afterCopyStep sched rest r := by
      rw [execute_copy_loop]
      dsimp only
      rw [if_neg (show ¬(pollCancel sched t op).cancelled = true from hc)]
      rw [hname]
      rfl
    rw [hunf, hr] at herr
    cases herr
  | case5 sp rest t op fs op1 hc fileName hname op2 destPath r op' fs' t' hr ih =>
    intro herr
    have hunf : execute_copy_loop sched (sp :: rest) t op fs
        = afterCopyStep sched rest r := by
      rw [execute_copy_loop]
      dsimp only
      rw [if_neg (show ¬(pollCancel sched t op).cancelled = true from hc)]
      rw [hname]
      rfl
    rw [hunf, hr] at herr ⊢
    exact ih (by exact herr)

theorem execute_delete_loop_completed (sched : CancelSchedule) :
    ∀ (srcs : List FPath) (t : Nat) (op : FileOperation) (fs : FsTree),
      (execute_delete_loop sched srcs t op fs).1.2.2 = none →
      (execute_delete_loop sched srcs t op fs).1.1.completed = true := by
  intro srcs t op fs
  induction srcs, t, op, fs using execute_delete_loop.induct sched with
  | case1 t op fs =>
    intro _
    rw [execute_delete_loop]
  | case2 sp rest t op fs op1 hc =>
    intro _
    rw [execute_delete_loop]
    dsimp only
    rw [if_pos (show (pollCancel sched t op).cancelled = true from hc)]
  | case3 sp rest t op fs op1 hc hname =>
    intro herr
    rw [execute_delete_loop] at herr
    dsimp only at herr
    rw [if_neg (show ¬(pollCancel sched t op).cancelled = true from hc), hname] at herr
    cases herr
  | case4 sp rest t op fs op1 hc fileName hname r e hr =>
    intro herr
    rw [execute_delete_loop] at herr
    dsimp only at herr
    rw [if_neg (show ¬(pollCancel sched t op).cancelled = true from hc), hname] at herr
    rw [show (if fs.isDirAt sp = true then remove_dir_all fs sp
          else remove_file fs sp) = Except.error e from hr] at herr
    cases herr
  | case5 sp rest t op fs op1 hc fileName hname op2 r fs' hr ih =>
    intro herr
    rw [execute_delete_loop] at herr ⊢
    dsimp only at herr ⊢
    rw [if_neg (show ¬(pollCancel sched t op).cancelled = true from hc), hname] at herr ⊢
    rw [show (if fs.isDirAt sp = true then remove_dir_all fs sp
          else remove_file fs sp) = Except.ok fs' from hr] at herr ⊢
    exact ih (by exact herr)

theorem execute_move_matches_copy_on_error (sched : CancelSchedule) (t : Nat)
    (op : FileOperation) (fs : FsTree) (e : GCError)
    (h : (execute_copy_operation sched t op fs).1.2.2 = some e) :
    execute_move_operation sched t op fs = execute_copy_operation sched t op fs := by
  unfold execute_move_operation
  split
  · rename_i op' fs' e' t' heq
    exact heq.symm
  · rename_i op' fs' t' heq
    rw [heq] at h
    cases h

theorem execute_move_skips_removals_when_cancelled (sched : CancelSchedule)
    (t : Nat) (op : FileOperation) (fs : FsTree)
    (hok : (execute_copy_operation sched t op fs).1.2.2 = none)
    (hcanc : (execute_copy_operation sched t op fs).1.1.cancelled = true) :
    execute_move_operation sched t op fs = execute_copy_operation sched t op fs := by
  unfold execute_move_operation
  split
  · rename_i op' fs' e' t' heq
    rw [heq] at hok
    cases hok
  · rename_i op' fs' t' heq
    rw [heq] at hcanc
    dsimp only at hcanc
    rw [if_neg (by simp [hcanc])]
    exact heq.symm

theorem execute_move_removes_all (sched : CancelSchedule) (t : Nat)
    (op : FileOperation) (fs : FsTree)
    (hok : (execute_copy_operation sched t op fs).1.2.2 = none)
    (hcanc : (execute_copy_operation sched t op fs).1.1.cancelled = false)
    (hmv : (execute_move_operation sched t op fs).1.2.2 = none) :
    ∀ p ∈ op.source_files,
      ((execute_move_operation sched t op fs).1.2.1).lookup p = none := by
  intro p hp
  have hsrc : (execute_copy_operation sched t op fs).1.1.source_files
      = op.source_files :=
    congrArg (fun q => q.2.1) (execute_copy_operation_shape sched t op fs)
  unfold execute_move_operation at hmv ⊢
  rcases heq : execute_copy_operation sched t op fs with ⟨⟨op', fs', err⟩, t'⟩
  rw [heq] at hok hcanc hsrc
  dsimp only at hok hcanc hsrc
  subst hok
  rw [heq] at hmv
  dsimp only at hmv ⊢
  rw [if_pos (show (!op'.cancelled) = true by simp [hcanc])] at hmv ⊢
  dsimp only at hmv ⊢
  have hrem : removeOriginalsGo op'.source_files fs'
      = ((removeOriginalsGo op'.source_files fs').1, none) := by
    exact Prod.ext rfl hmv
  exact removeOriginalsGo_success_removed op'.source_files fs' _ hrem p
    (by rw [hsrc]; exact hp)

/-- Claim C1: a Move first runs the full copy phase; originals are removed
exactly when that phase finished without the cancelled flag; a failing
removal propagates its error and skips the remaining removals. -/
theorem move_removes_originals_iff_uncancelled :
    (∀ (sched : CancelSchedule) (t : Nat) (op : FileOperation) (fs : FsTree)
       (e : GCError),
       (execute_copy_operation sched t op fs).1.2.2 = some e →
       execute_move_operation sched t op fs = execute_copy_operation sched t op fs) ∧
    (∀ (sched : CancelSchedule) (t : Nat) (op : FileOperation) (fs : FsTree),
       (execute_copy_operation sched t op fs).1.2.2 = none →
       (execute_copy_operation sched t op fs).1.1.cancelled = true →
       execute_move_operation sched t op fs = execute_copy_operation sched t op fs) ∧
    (∀ (sched : CancelSchedule) (t : Nat) (op : FileOperation) (fs : FsTree),
       (execute_copy_operation sched t op fs).1.2.2 = none →
       (execute_copy_operation sched t op fs).1.1.cancelled = false →
       (execute_move_operation sched t op fs).1.2.2 = none →
       ∀ p ∈ op.source_files,
         ((execute_move_operation sched t op fs).1.2.1).lookup p = none) ∧
    (∀ (xs ys : List FPath) (sp : FPath) (fs fs1 : FsTree) (e : GCError),
       removeOriginalsGo xs fs = (fs1, none) →
       (if fs1.isDirAt sp then remove_dir_all fs1 sp else remove_file fs1 sp)
         = .error e →
       removeOriginalsGo (xs ++ sp :: ys) fs = (fs1, some e)) :=
  ⟨execute_move_matches_copy_on_error,
   execute_move_skips_removals_when_cancelled,
   execute_move_removes_all,
   removeOriginalsGo_failure⟩

/-- Witness for C1: a concrete uncancelled move of `a` and `b` removes the
original `a`. -/
theorem move_removes_originals_iff_uncancelled_witness :
    ((execute_move_operation (fun _ => false) 0 mvW fsW).1.2.1).lookup ["a"]
      = none :=
  move_removes_originals_iff_uncancelled.2.2.1 (fun _ => false) 0 mvW fsW
    rfl rfl rfl ["a"] (by decide)

/-- Claim C5: `completed` is set whenever the copy/delete execution loop
runs to its end, including cancellation cutting it short; on the concrete
cancelled-mid-copy run completed and cancelled hold with partial
progress. -/
theorem completed_true_even_when_cancelled :
    (∀ (sched : CancelSchedule) (t : Nat) (op : FileOperation) (fs : FsTree),
       (execute_copy_operation sched t op fs).1.2.2 = none →
       (execute_copy_operation sched t op fs).1.1.completed = true) ∧
    (∀ (sched : CancelSchedule) (t : Nat) (op : FileOperation) (fs : FsTree),
       (execute_delete_operation sched t op fs).1.2.2 = none →
       (execute_delete_operation sched t op fs).1.1.completed = true) ∧
    ((execute_copy_operation schedW 0 cpW fsW).1.2.2 = none ∧
     (execute_copy_operation schedW 0 cpW fsW).1.1.completed = true ∧
     (execute_copy_operation schedW 0 cpW fsW).1.1.cancelled = true ∧
     (execute_copy_operation schedW 0 cpW fsW).1.1.processed_size = 100 ∧
     (execute_copy_operation schedW 0 cpW fsW).1.1.total_size = 600 ∧
     (execute_copy_operation schedW 0 cpW fsW).1.1.processed_size
       < (execute_copy_operation schedW 0 cpW fsW).1.1.total_size) := by
  refine ⟨fun sched t op fs => execute_copy_loop_completed sched op.source_files t op fs,
          fun sched t op fs => execute_delete_loop_completed sched op.source_files t op fs,
          rfl, rfl, rfl, rfl, rfl, by decide⟩

/-- Witness for C5: the uncancelled concrete copy completes. -/
theorem completed_true_even_when_cancelled_witness :
    (execute_copy_operation (fun _ => false) 0 cpW fsW).1.1.completed = true :=
  completed_true_even_when_cancelled.1 (fun _ => false) 0 cpW fsW rfl

/-- Claim C4 (divergence evidence): deleting the single 13-byte file
computes `total_size = 13` at construction, runs to completion, removes
the file — and leaves `processed_size = 0`, because `get_path_size` is
evaluated after the removal; the claim expects `processed_size = 13`. -/
theorem delete_processed_size_stays_zero :
    delW.total_size = 13 ∧
    (execute_delete_operation (fun _ => false) 0 delW fsDelW).1.2.2 = none ∧
    (execute_delete_operation (fun _ => false) 0 delW fsDelW).1.1.completed = true ∧
    (execute_delete_operation (fun _ => false) 0 delW fsDelW).1.1.current_file
      = some "a.txt" ∧
    ((execute_delete_operation (fun _ => false) 0 delW fsDelW).1.2.1.lookup
      ["a.txt"]).isNone = true ∧
    (execute_delete_operation (fun _ => false) 0 delW fsDelW).1.1.processed_size
      = 0 :=
  ⟨rfl, rfl, rfl, rfl, rfl, rfl⟩

theorem mem_orderedInsertBy {α : Type} (le : α → α → Bool) (x a : α) :
    ∀ (l : List α), a ∈ orderedInsertBy le x l ↔ a = x ∨ a ∈ l := by
  intro l
  induction l with
  | nil => simp [orderedInsertBy]
  | cons b tl ih =>
    rw [orderedInsertBy]
    by_cases h : le x b = true
    · simp [h]
    · simp only [if_neg h, List.mem_cons, ih]
      tauto

theorem mem_sortBy {α : Type} (le : α → α → Bool) (a : α) :
    ∀ (l : List α), a ∈ sortBy le l ↔ a ∈ l := by
  intro l
  induction l with
  | nil => simp [sortBy]
  | cons b tl ih =>
    rw [sortBy, mem_orderedInsertBy]
    simp [ih]

theorem sortBy_length {α : Type} (le : α → α → Bool) :
    ∀ (l : List α), (sortBy le l).length = l.length := by
  intro l
  induction l with
  | nil => rfl
  | cons b tl ih =>
    rw [sortBy]
    have : ∀ (x : α) (m : List α), (orderedInsertBy le x m).length = m.length + 1 := by
      intro x m
      induction m with
      | nil => rfl
      | cons c tm ihm =>
        rw [orderedInsertBy]
        by_cases h : le x c = true
        · simp [h]
        · simp [h, ihm]
    rw [this, ih, List.length_cons]

theorem dedupGo_subset (prev : ArchiveEntry) :
    ∀ (l : List ArchiveEntry) (a : ArchiveEntry), a ∈ dedupGo prev l → a ∈ l := by
  intro l
  induction l generalizing prev with
  | nil => intro a h; cases h
  | cons y ys ih =>
    intro a h
    rw [dedupGo] at h
    by_cases hy : y.name = prev.name
    · rw [if_pos hy] at h
      exact List.mem_cons_of_mem y (ih prev a h)
    · rw [if_neg hy] at h
      rcases List.mem_cons.mp h with rfl | h2
      · exact List.mem_cons_self a ys
      · exact List.mem_cons_of_mem y (ih y a h2)

theorem dedupByName_subset :
    ∀ (l : List ArchiveEntry) (a : ArchiveEntry), a ∈ dedupByName l → a ∈ l := by
  intro l a h
  cases l with
  | nil => cases h
  | cons x xs =>
    rw [dedupByName] at h
    rcases List.mem_cons.mp h with rfl | h2
    · exact List.mem_cons_self a xs
    · exact List.mem_cons_of_mem x (dedupGo_subset x xs a h2)

theorem dedupGo_names (x : ArchiveEntry) :
    ∀ (l : List ArchiveEntry) (prev : ArchiveEntry), x ∈ l →
      x.name = prev.name ∨ ∃ y ∈ dedupGo prev l, y.name = x.name := by
  intro l
  induction l with
  | nil => intro prev h; cases h
  | cons z zs ih =>
    intro prev h
    rw [dedupGo]
    by_cases hz : z.name = prev.name
    · rw [if_pos hz]
      rcases List.mem_cons.mp h with rfl | h2
      · exact Or.inl hz
      · exact ih prev h2
    · rw [if_neg hz]
      rcases List.mem_cons.mp h with rfl | h2
      · exact Or.inr ⟨x, List.mem_cons_self x _, rfl⟩
      · rcases ih z h2 with heq | ⟨y, hy, hyn⟩
        · exact Or.inr ⟨z, List.mem_cons_self z _, heq.symm⟩
        · exact Or.inr ⟨y, List.mem_cons_of_mem z hy, hyn⟩

theorem dedupByName_names (x : ArchiveEntry) :
    ∀ (l : List ArchiveEntry), x ∈ l →
      ∃ y ∈ dedupByName l, y.name = x.name := by
  intro l h
  cases l with
  | nil => cases h
  | cons z zs =>
    rw [dedupByName]
    rcases List.mem_cons.mp h with rfl | h2
    · exact ⟨x, List.mem_cons_self x _, rfl⟩
    · rcases dedupGo_names x zs z h2 with heq | ⟨y, hy, hyn⟩
      · exact ⟨z, List.mem_cons_self z _, heq.symm⟩
      · exact ⟨y, List.mem_cons_of_mem z hy, hyn⟩

theorem zipChildOf_some_iff (vp n : String) (m : ZipMember) :
    (∃ e, zipChildOf vp m = some e ∧ e.name = n) ↔ oneLevelChild vp m.name n := by
  unfold zipChildOf oneLevelChild
  by_cases h1 : strStartsWith m.name vp = true
  · rw [if_pos h1]
    by_cases h2 : strDropChars m.name (strLen vp) = ""
    · rw [if_pos h2]
      constructor
      · rintro ⟨e, he, -⟩
        cases he
      · rintro ⟨-, hne, -⟩
        exact absurd h2 hne
    · rw [if_neg h2]
      by_cases h3 : ((strSplitChar (strTrimStartChar (strDropChars m.name (strLen vp)) '/') '/').length = 1 ∨
          ((strSplitChar (strTrimStartChar (strDropChars m.name (strLen vp)) '/') '/').length = 2 ∧
           (strSplitChar (strTrimStartChar (strDropChars m.name (strLen vp)) '/') '/').getD 1 "" = ""))
      · rw [if_pos h3]
        constructor
        · rintro ⟨e, he, hn⟩
          cases he
          exact ⟨h1, h2, h3, hn⟩
        · rintro ⟨-, -, -, hn⟩
          exact ⟨_, rfl, hn⟩
      · rw [if_neg h3]
        constructor
        · rintro ⟨e, he, -⟩
          cases he
        · rintro ⟨-, -, h3', -⟩
          exact absurd h3' h3
  · rw [if_neg h1]
    constructor
    · rintro ⟨e, he, -⟩
      cases he
    · rintro ⟨ha, -⟩
      exact absurd ha h1

theorem tarChildOf_some_iff (vp n : String) (m : TarMember) :
    (∃ e, tarChildOf vp m = some e ∧ e.name = n) ↔ oneLevelChild vp m.name n := by
  unfold tarChildOf oneLevelChild
  by_cases h1 : strStartsWith m.name vp = true
  · rw [if_pos h1]
    by_cases h2 : strDropChars m.name (strLen vp) = ""
    · rw [if_pos h2]
      constructor
      · rintro ⟨e, he, -⟩
        cases he
      · rintro ⟨-, hne, -⟩
        exact absurd h2 hne
    · rw [if_neg h2]
      by_cases h3 : ((strSplitChar (strTrimStartChar (strDropChars m.name (strLen vp)) '/') '/').length = 1 ∨
          ((strSplitChar (strTrimStartChar (strDropChars m.name (strLen vp)) '/') '/').length = 2 ∧
           (strSplitChar (strTrimStartChar (strDropChars m.name (strLen vp)) '/') '/').getD 1 "" = ""))
      · rw [if_pos h3]
        constructor
        · rintro ⟨e, he, hn⟩
          cases he
          exact ⟨h1, h2, h3, hn⟩
        · rintro ⟨-, -, -, hn⟩
          exact ⟨_, rfl, hn⟩
      · rw [if_neg h3]
        constructor
        · rintro ⟨e, he, -⟩
          cases he
        · rintro ⟨-, -, h3', -⟩
          exact absurd h3' h3
  · rw [if_neg h1]
    constructor
    · rintro ⟨e, he, -⟩
      cases he
    · rintro ⟨ha, -⟩
      exact absurd ha h1

theorem vp_prefix_id (vp : String) : (if vp = "" then "" else vp) = vp := by
  split
  · rename_i h
    exact h.symm
  · rfl

/-- Claim C6 (counterexample): listing that container at `docs/` yields
only the file `readme.txt`; no `img` directory entry is synthesized from
the deeper-nested member, contradicting the claim's example. -/
theorem list_entries_example_returns_only_readme :
    ((Zip.list_entries zmsW "docs/").map (fun e => (e.name, e.is_dir))
       = [("readme.txt", false)]) ∧
    (¬ ∃ e ∈ Zip.list_entries zmsW "docs/", e.name = "img") := by
  constructor
  · rfl
  · decide

/-- Claim C6 (amended): for both handlers, a name appears in
`list_entries` exactly when some member passes the one-level-child rule
with that name as its first segment (deeper-nested members never
contribute), and the example listing yields exactly the file
`readme.txt`. -/
theorem list_entries_exactly_one_level_children :
    (∀ (members : List ZipMember) (vp n : String),
       (∃ e ∈ Zip.list_entries members vp, e.name = n) ↔
       (∃ m ∈ members, oneLevelChild vp m.name n)) ∧
    (∀ (members : List TarMember) (vp n : String),
       (∃ e ∈ Tar.list_entries members vp, e.name = n) ↔
       (∃ m ∈ members, oneLevelChild vp m.name n)) ∧
    ((Zip.list_entries zmsW "docs/").map (fun e => (e.name, e.is_dir))
       = [("readme.txt", false)]) := by
  refine ⟨?_, ?_, rfl⟩
  · intro members vp n
    unfold Zip.list_entries
    rw [vp_prefix_id]
    constructor
    · rintro ⟨e, he, hn⟩
      have h1 := dedupByName_subset _ e he
      have h2 := (mem_sortBy archiveEntryLe e _).mp h1
      rcases List.mem_filterMap.mp h2 with ⟨m, hm, hfm⟩
      exact ⟨m, hm, (zipChildOf_some_iff vp n m).mp ⟨e, hfm, hn⟩⟩
    · rintro ⟨m, hm, hrule⟩
      rcases (zipChildOf_some_iff vp n m).mpr hrule with ⟨e, hfm, hn⟩
      have h1 : e ∈ members.filterMap (zipChildOf vp) :=
        List.mem_filterMap.mpr ⟨m, hm, hfm⟩
      have h2 := (mem_sortBy archiveEntryLe e _).mpr h1
      rcases dedupByName_names e _ h2 with ⟨y, hy, hyn⟩
      exact ⟨y, hy, hyn.trans hn⟩
  · intro members vp n
    unfold Tar.list_entries
    rw [vp_prefix_id]
    constructor
    · rintro ⟨e, he, hn⟩
      have h1 := dedupByName_subset _ e he
      have h2 := (mem_sortBy archiveEntryLe e _).mp h1
      rcases List.mem_filterMap.mp h2 with ⟨m, hm, hfm⟩
      exact ⟨m, hm, (tarChildOf_some_iff vp n m).mp ⟨e, hfm, hn⟩⟩
    · rintro ⟨m, hm, hrule⟩
      rcases (tarChildOf_some_iff vp n m).mpr hrule with ⟨e, hfm, hn⟩
      have h1 : e ∈ members.filterMap (tarChildOf vp) :=
        List.mem_filterMap.mpr ⟨m, hm, hfm⟩
      have h2 := (mem_sortBy archiveEntryLe e _).mpr h1
      rcases dedupByName_names e _ h2 with ⟨y, hy, hyn⟩
      exact ⟨y, hy, hyn.trans hn⟩

theorem core_is_supported_archive_eq_amended (name : String) :
    Core.is_supported_archive name = amended_is_archive name := by
  unfold Core.is_supported_archive amended_is_archive
  cases h : rustExtension name with
  | none =>
    dsimp only
    by_cases hy : (strEndsWith (lowerStr name) ".tar.gz" ||
        strEndsWith (lowerStr name) ".tar.bz2" ||
        strEndsWith (lowerStr name) ".tar.xz") = true
    · simp [hy]
    · simp [hy]
  | some ext =>
    dsimp only
    by_cases hb : (lowerStr ext = "zip" || lowerStr ext = "tar" ||
        lowerStr ext = "gz" || lowerStr ext = "tgz") = true
    · simp [hb]
    · simp [hb]

theorem pushChildren_ok_mem (base : FPath) :
    ∀ (kids : List (Except String RawChild)) (acc out : List FileEntry),
      pushChildren base acc kids = .ok out →
      ∀ e ∈ out, e ∈ acc ∨ ∃ c, Except.ok c ∈ kids ∧ e = childEntry base c := by
  intro kids
  induction kids with
  | nil =>
    intro acc out h e he
    rw [pushChildren] at h
    cases h
    exact Or.inl he
  | cons k rest ih =>
    intro acc out h e he
    cases k with
    | error s =>
      rw [pushChildren] at h
      cases h
    | ok c =>
      rw [pushChildren] at h
      rcases ih _ _ h e he with hacc | ⟨c2, hc2, he2⟩
      · rcases List.mem_append.mp hacc with h1 | h2
        · exact Or.inl h1
        · exact Or.inr ⟨c, List.mem_cons_self _ _, List.mem_singleton.mp h2⟩
      · exact Or.inr ⟨c2, List.mem_cons_of_mem _ hc2, he2⟩

theorem mem_withParent (p : PaneState) (e : FileEntry)
    (h : e ∈ (match fpathParent p.current_path with
         | some par => if par ≠ p.current_path then [parentEntryFor par] else []
         | none => ([] : List FileEntry))) :
    e.name = ".." ∧ e.is_archive = false := by
  cases hp : fpathParent p.current_path with
  | none =>
    rw [hp] at h
    cases h
  | some par =>
    rw [hp] at h
    dsimp only at h
    by_cases hne : par ≠ p.current_path
    · rw [if_pos hne] at h
      cases List.mem_singleton.mp h
      exact ⟨rfl, rfl⟩
    · rw [if_neg hne] at h
      cases h

/-- Claim C7 (counterexample): a refresh flags `data.gz` as an archive
even though it ends with none of the six claimed suffixes (checked by
`Archive.is_supported_archive`, which is exactly the claimed suffix test);
conversely `.tbz2`, which is in the claimed list, is not flagged. -/
theorem is_archive_flag_counterexample :
    (∃ e ∈ (pC7.refresh gzListing).1.entries,
       e.name = "data.gz" ∧ e.is_archive = true) ∧
    Archive.is_supported_archive "data.gz" = false ∧
    Core.is_supported_archive "a.tbz2" = false ∧
    Archive.is_supported_archive "a.tbz2" = true ∧
    Core.is_supported_archive "a.tar.xz" = true ∧
    Archive.is_supported_archive "a.tar.xz" = false := by
  exact ⟨by decide, rfl, rfl, rfl, rfl, rfl⟩

/-- Claim C7 (amended): every `FileEntry` a successful refresh builds has
`is_archive` equal to the amended extension rule. -/
theorem refresh_entries_is_archive_amended :
    ∀ (p : PaneState) (listing : DirListing),
      (p.refresh listing).2 = none →
      ∀ e ∈ (p.refresh listing).1.entries,
        e.is_archive = amended_is_archive e.name := by
  intro p listing hok e he
  have hWmem := fun x => mem_withParent p x
  unfold PaneState.refresh at hok he
  cases listing with
  | error s =>
    dsimp only at hok
    cases hok
  | ok kids =>
    dsimp only at hok he
    cases hpc : pushChildren p.current_path
        (match fpathParent p.current_path with
         | some par => if par ≠ p.current_path then [parentEntryFor par] else []
         | none => ([] : List FileEntry)) kids with
    | error pr =>
      rw [hpc] at hok
      dsimp only at hok
      cases hok
    | ok acc =>
      rw [hpc] at he
      dsimp only at he
      have hacc := (mem_sortBy refreshLe e acc).mp he
      rcases pushChildren_ok_mem p.current_path kids _ acc hpc e hacc with hw | ⟨c, -, rfl⟩
      · obtain ⟨hname, harch⟩ := hWmem e hw
        rw [harch, hname]
        decide
      · show Core.is_supported_archive c.name = amended_is_archive c.name
        exact core_is_supported_archive_eq_amended c.name

/-- Witness for C7: the amended rule applied to the concrete `data.gz`
entry built by the example refresh. -/
theorem refresh_entries_is_archive_amended_witness :
    (childEntry ["d"] gzChild).is_archive
      = amended_is_archive (childEntry ["d"] gzChild).name :=
  refresh_entries_is_archive_amended pC7 gzListing rfl
    (childEntry ["d"] gzChild) (by decide)

/-- Claim C2 (divergence evidence): when reading the directory fails, the
refresh error is returned but the pane's previous entries are gone — only
the freshly pushed synthetic parent remains, because the code clears
before reading. -/
theorem refresh_failure_clears_entries :
    (pC2.refresh (.error "permission denied")).2
      = some (.Io "permission denied") ∧
    (pC2.refresh (.error "permission denied")).1.entries
      = [parentEntryFor ["home"]] ∧
    (pC2.refresh (.error "permission denied")).1.entries ≠ pC2.entries := by
  exact ⟨rfl, rfl, by decide⟩

/-- Claim C3 (divergence evidence): `create_archive_handler` rejects
`.tar.bz2` and `.tbz2` names (their Rust extension is `bz2`/`tbz2`, which
reaches the default unsupported-format arm, making the inner
`.tar.bz2`/`.tbz2` suffix check dead code), while the other five claimed
extensions behave as stated. -/
theorem create_archive_handler_rejects_bz2 :
    Archive.create_archive_handler "a.tar.bz2"
      = .error (.Archive "Unsupported archive format: bz2") ∧
    Archive.create_archive_handler "b.tbz2"
      = .error (.Archive "Unsupported archive format: tbz2") ∧
    Archive.create_archive_handler "a.zip" = .ok .zip ∧
    Archive.create_archive_handler "a.tar" = .ok .tar ∧
    Archive.create_archive_handler "a.tar.gz" = .ok .tar ∧
    Archive.create_archive_handler "a.tgz" = .ok .tar ∧
    Archive.create_archive_handler "a.txt"
      = .error (.Archive "Unsupported archive format: txt") := by
  exact ⟨rfl, rfl, rfl, rfl, rfl, rfl, rfl⟩

theorem mem_hsInsert (s : List Nat) (i j : Nat) :
    j ∈ hsInsert s i ↔ j = i ∨ j ∈ s := by
  unfold hsInsert
  by_cases h : i ∈ s
  · rw [if_pos h]
    constructor
    · exact Or.inr
    · rintro (rfl | hj)
      · exact h
      · exact hj
  · rw [if_neg h]
    exact List.mem_cons

theorem selectGo_count (pat : String) :
    ∀ (l : List FileEntry) (i : Nat) (sel : List Nat) (c : Nat),
      (selectGo pat l i sel c).2
        = c + l.countP (fun e => !(e.name == "..") && matches_glob_pattern e.name pat) := by
  intro l
  induction l with
  | nil => intro i sel c; simp [selectGo]
  | cons e tl ih =>
    intro i sel c
    rw [selectGo]
    by_cases h1 : e.name = ".."
    · rw [if_pos h1, ih, List.countP_cons]
      simp [h1]
    · rw [if_neg h1]
      by_cases h2 : matches_glob_pattern e.name pat = true
      · rw [if_pos h2, ih, List.countP_cons]
        simp only [h2, Bool.and_true]
        have hb : (e.name == "..") = false := by
          simpa using h1
        rw [hb]
        simp
        omega
      · rw [if_neg h2, ih, List.countP_cons]
        simp only [Bool.and_eq_true]
        have hb : matches_glob_pattern e.name pat = false := by
          simpa using h2
        rw [hb]
        simp

theorem exists_entry_cons_shift (e : FileEntry) (tl : List FileEntry)
    (Q : FileEntry → Prop) (i j : Nat) :
    (∃ k e', (e :: tl)[k]? = some e' ∧ Q e' ∧ j = i + k) ↔
    ((Q e ∧ j = i) ∨ (∃ k e', tl[k]? = some e' ∧ Q e' ∧ j = (i + 1) + k)) := by
  constructor
  · rintro ⟨k, e', hk, hQ, rfl⟩
    cases k with
    | zero =>
      rw [List.getElem?_cons_zero] at hk
      cases hk
      exact Or.inl ⟨hQ, by omega⟩
    | succ k =>
      rw [List.getElem?_cons_succ] at hk
      exact Or.inr ⟨k, e', hk, hQ, by omega⟩
  · rintro (⟨hQ, rfl⟩ | ⟨k, e', hk, hQ, rfl⟩)
    · exact ⟨0, e, List.getElem?_cons_zero, hQ, by omega⟩
    · exact ⟨k + 1, e', by rw [List.getElem?_cons_succ]; exact hk, hQ, by omega⟩

theorem selectGo_mem (pat : String) :
    ∀ (l : List FileEntry) (i : Nat) (sel : List Nat) (c : Nat) (j : Nat),
      j ∈ (selectGo pat l i sel c).1 ↔
      j ∈ sel ∨ ∃ k e, l[k]? = some e ∧ (e.name ≠ ".." ∧
        matches_glob_pattern e.name pat = true) ∧ j = i + k := by
  intro l
  induction l with
  | nil =>
    intro i sel c j
    simp [selectGo]
  | cons e tl ih =>
    intro i sel c j
    rw [selectGo]
    rw [exists_entry_cons_shift e tl
      (fun e' => e'.name ≠ ".." ∧ matches_glob_pattern e'.name pat = true) i j]
    by_cases h1 : e.name = ".."
    · rw [if_pos h1, ih]
      constructor
      · rintro (hs | hrest)
        · exact Or.inl hs
        · exact Or.inr (Or.inr hrest)
      · rintro (hs | ⟨⟨hne, -⟩, -⟩ | hrest)
        · exact Or.inl hs
        · exact absurd h1 hne
        · exact Or.inr hrest
    · rw [if_neg h1]
      by_cases h2 : matches_glob_pattern e.name pat = true
      · rw [if_pos h2, ih]
        rw [mem_hsInsert]
        constructor
        · rintro ((rfl | hs) | hrest)
          · exact Or.inr (Or.inl ⟨⟨h1, h2⟩, rfl⟩)
          · exact Or.inl hs
          · exact Or.inr (Or.inr hrest)
        · rintro (hs | ⟨-, rfl⟩ | hrest)
          · exact Or.inl (Or.inr hs)
          · exact Or.inl (Or.inl rfl)
          · exact Or.inr hrest
      · rw [if_neg h2, ih]
        constructor
        · rintro (hs | hrest)
          · exact Or.inl hs
          · exact Or.inr (Or.inr hrest)
        · rintro (hs | ⟨⟨-, hm⟩, -⟩ | hrest)
          · exact Or.inl hs
          · exact absurd hm h2
          · exact Or.inr hrest

theorem charSplit_ne_nil (c : Char) : ∀ (l : List Char), charSplit c l ≠ [] := by
  intro l
  cases l with
  | nil => simp [charSplit]
  | cons x xs =>
    rw [charSplit]
    by_cases h : x = c
    · rw [if_pos h]
      simp
    · rw [if_neg h]
      cases hs : charSplit c xs <;> simp

theorem charSplit_length (c : Char) :
    ∀ (l : List Char), (charSplit c l).length = l.count c + 1 := by
  intro l
  induction l with
  | nil => simp [charSplit]
  | cons x xs ih =>
    rw [charSplit]
    by_cases h : x = c
    · rw [if_pos h, List.length_cons, ih, List.count_cons]
      simp [h]
    · rw [if_neg h]
      cases hs : charSplit c xs with
      | nil => exact absurd hs (charSplit_ne_nil c xs)
      | cons hd tl =>
        rw [hs] at ih
        rw [List.length_cons, List.count_cons]
        simp only [List.length_cons] at ih
        have : (x == c) = false := by simpa using h
        rw [this]
        simpa using ih

theorem strContainsChar_iff (s : String) (c : Char) :
    strContainsChar s c = true ↔ c ∈ s.data := by
  unfold strContainsChar
  exact List.elem_iff

theorem glob_one_star (n pat : String) (hne : pat ≠ "*")
    (hcount : pat.data.count '*' = 1) :
    matches_glob_pattern n pat
      = (strStartsWith n ((strSplitChar pat '*').headD "") &&
         strEndsWith n ((strSplitChar pat '*').getD 1 "")) := by
  unfold matches_glob_pattern
  rw [if_neg hne]
  have hcont : strContainsChar pat '*' = true := by
    rw [strContainsChar_iff]
    have : 0 < pat.data.count '*' := by omega
    exact List.count_pos_iff.mp this
  rw [if_pos hcont]
  have hlen : (strSplitChar pat '*').length = 2 := by
    unfold strSplitChar
    rw [List.length_map, charSplit_length, hcount]
  rw [if_pos hlen]

theorem glob_exact_match (n pat : String) (hne : pat ≠ "*")
    (hcount : pat.data.count '*' ≠ 1) :
    matches_glob_pattern n pat = decide (n = pat) := by
  unfold matches_glob_pattern
  rw [if_neg hne]
  by_cases hcont : strContainsChar pat '*' = true
  · rw [if_pos hcont]
    have hpos : 0 < pat.data.count '*' :=
      List.count_pos_iff.mpr ((strContainsChar_iff pat '*').mp hcont)
    have hlen : ¬(strSplitChar pat '*').length = 2 := by
      unfold strSplitChar
      rw [List.length_map, charSplit_length]
      omega
    rw [if_neg hlen]
  · rw [if_neg hcont]

/-- Claim C8: `select_by_pattern` only adds to the selection, selects
exactly the non-parent entries matched by the restricted glob and returns
their count; the glob matches everything on `"*"`, by prefix/suffix on a
single-`*` pattern, and only literally otherwise; the `"*.txt"` example
selects exactly the two text files and returns 2. -/
theorem select_by_pattern_spec :
    (∀ (p : PaneState) (pat : String),
       (∀ j ∈ p.selected_indices,
          j ∈ (p.select_by_pattern pat).1.selected_indices) ∧
       (∀ j, j ∈ (p.select_by_pattern pat).1.selected_indices ↔
          j ∈ p.selected_indices ∨
          ∃ e, p.entries[j]? = some e ∧ e.name ≠ ".." ∧
            matches_glob_pattern e.name pat = true) ∧
       ((p.select_by_pattern pat).2
         = p.entries.countP
             (fun e => !(e.name == "..") && matches_glob_pattern e.name pat)) ∧
       (p.select_by_pattern pat).1.entries = p.entries) ∧
    (∀ n : String, matches_glob_pattern n "*" = true) ∧
    (∀ (n pat : String), pat ≠ "*" → pat.data.count '*' = 1 →
       matches_glob_pattern n pat
         = (strStartsWith n ((strSplitChar pat '*').headD "") &&
            strEndsWith n ((strSplitChar pat '*').getD 1 ""))) ∧
    (∀ (n pat : String), pat ≠ "*" → pat.data.count '*' ≠ 1 →
       matches_glob_pattern n pat = decide (n = pat)) ∧
    ((pGlobW.select_by_pattern "*.txt").2 = 2 ∧
     ∀ j, (j ∈ (pGlobW.select_by_pattern "*.txt").1.selected_indices
        ↔ (j = 0 ∨ j = 1))) := by
  refine ⟨?_, fun n => rfl, glob_one_star, glob_exact_match, rfl, ?_⟩
  · intro p pat
    have hsel : (p.select_by_pattern pat).1.selected_indices
        = (selectGo pat p.entries 0 p.selected_indices 0).1 := rfl
    refine ⟨?_, ?_, ?_, rfl⟩
    · intro j hj
      rw [hsel, selectGo_mem]
      exact Or.inl hj
    · intro j
      rw [hsel, selectGo_mem]
      constructor
      · rintro (hs | ⟨k, e, hk, hq, hjk⟩)
        · exact Or.inl hs
        · refine Or.inr ⟨e, ?_, hq.1, hq.2⟩
          have : j = k := by omega
          rw [this]
          exact hk
      · rintro (hs | ⟨e, hj, hne, hm⟩)
        · exact Or.inl hs
        · exact Or.inr ⟨j, e, hj, ⟨hne, hm⟩, by omega⟩
    · have hcnt : (p.select_by_pattern pat).2
          = (selectGo pat p.entries 0 p.selected_indices 0).2 := rfl
      rw [hcnt, selectGo_count]
      omega
  · intro j
    have : (pGlobW.select_by_pattern "*.txt").1.selected_indices = [1, 0] := rfl
    rw [this]
    constructor
    · intro hj
      rcases List.mem_cons.mp hj with rfl | hj2
      · exact Or.inr rfl
      · rcases List.mem_cons.mp hj2 with rfl | hj3
        · exact Or.inl rfl
        · cases hj3
    · rintro (rfl | rfl)
      · exact List.mem_cons_of_mem 1 (List.mem_cons_self 0 [])
      · exact List.mem_cons_self 1 [0]

/-- Witness for C8: the single-star rule applied to `*.txt`. -/
theorem select_by_pattern_spec_witness :
    matches_glob_pattern "test.txt" "*.txt"
      = (strStartsWith "test.txt" ((strSplitChar "*.txt" '*').headD "") &&
         strEndsWith "test.txt" ((strSplitChar "*.txt" '*').getD 1 "")) :=
  select_by_pattern_spec.2.2.1 "test.txt" "*.txt" (by decide) (by decide)

theorem cursor_up_entries (p : PaneState) (h : Nat) :
    (p.cursor_up h).entries = p.entries := by
  unfold PaneState.cursor_up
  split <;> rfl

theorem cursor_down_entries (p : PaneState) (h : Nat) :
    (p.cursor_down h).entries = p.entries := by
  unfold PaneState.cursor_down
  split <;> rfl

theorem cursor_up_bound (p : PaneState) (h : Nat)
    (hb : p.cursor_index ≤ p.entries.length - 1) :
    (p.cursor_up h).cursor_index ≤ p.entries.length - 1 := by
  unfold PaneState.cursor_up
  split <;> dsimp only <;> omega

theorem cursor_down_bound (p : PaneState) (h : Nat)
    (hb : p.cursor_index ≤ p.entries.length - 1) :
    (p.cursor_down h).cursor_index ≤ p.entries.length - 1 := by
  unfold PaneState.cursor_down
  split <;> dsimp only
  · rename_i hlt
    omega
  · omega

theorem applyCursorMoves_entries :
    ∀ (ms : List CursorMove) (p : PaneState),
      (applyCursorMoves ms p).entries = p.entries := by
  intro ms
  induction ms with
  | nil => intro p; rfl
  | cons m rest ih =>
    intro p
    cases m with
    | up h => rw [applyCursorMoves, ih, cursor_up_entries]
    | down h => rw [applyCursorMoves, ih, cursor_down_entries]

/-- Claim C9: up/down sequences keep a valid cursor valid (entries
untouched); from an out-of-range index, `cursor_down` is a no-op while
`cursor_up` decrements by exactly one; `cursor_home` and `cursor_end`
always land on a valid index. -/
theorem cursor_navigation_bounds :
    (∀ (ms : List CursorMove) (p : PaneState),
       p.cursor_index ≤ p.entries.length - 1 →
       (applyCursorMoves ms p).cursor_index ≤ p.entries.length - 1 ∧
       (applyCursorMoves ms p).entries = p.entries) ∧
    (∀ (p : PaneState) (h : Nat), p.entries.length - 1 < p.cursor_index →
       p.cursor_down h = p ∧
       (p.cursor_up h).cursor_index = p.cursor_index - 1) ∧
    (∀ (p : PaneState) (h : Nat),
       (p.cursor_home h).cursor_index = 0 ∧
       (p.cursor_end h).cursor_index = p.entries.length - 1 ∧
       (p.cursor_home h).cursor_index ≤ p.entries.length - 1 ∧
       (p.cursor_end h).cursor_index ≤ p.entries.length - 1) := by
  refine ⟨?_, ?_, ?_⟩
  · intro ms
    induction ms with
    | nil => intro p hb; exact ⟨hb, rfl⟩
    | cons m rest ih =>
      intro p hb
      cases m with
      | up h =>
        have h1 := ih (p.cursor_up h) (by rw [cursor_up_entries]; exact cursor_up_bound p h hb)
        rw [applyCursorMoves]
        rw [cursor_up_entries] at h1
        exact h1
      | down h =>
        have h1 := ih (p.cursor_down h) (by rw [cursor_down_entries]; exact cursor_down_bound p h hb)
        rw [applyCursorMoves]
        rw [cursor_down_entries] at h1
        exact h1
  · intro p h hb
    constructor
    · unfold PaneState.cursor_down
      rw [if_neg (by omega)]
    · unfold PaneState.cursor_up
      rw [if_pos (by omega)]
  · intro p h
    exact ⟨rfl, rfl, by dsimp only [PaneState.cursor_home]; omega,
           by dsimp only [PaneState.cursor_end]; omega⟩

/-- Witness for C9: a concrete down/down/up walk on the three-entry
example pane stays within bounds. -/
theorem cursor_navigation_bounds_witness :
    (applyCursorMoves [CursorMove.down 10, CursorMove.down 10, CursorMove.up 10]
        pGlobW).cursor_index ≤ pGlobW.entries.length - 1 :=
  (cursor_navigation_bounds.1 _ pGlobW (by decide)).1

theorem refresh_selInv (p : PaneState) (listing : DirListing)
    (hok : (p.refresh listing).2 = none) : SelInv (p.refresh listing).1 := by
  unfold PaneState.refresh at hok ⊢
  cases listing with
  | error s =>
    dsimp only at hok
    cases hok
  | ok kids =>
    dsimp only at hok ⊢
    cases hpc : pushChildren p.current_path
        (match fpathParent p.current_path with
         | some par => if par ≠ p.current_path then [parentEntryFor par] else []
         | none => ([] : List FileEntry)) kids with
    | error pr =>
      rw [hpc] at hok
      dsimp only at hok
      cases hok
    | ok acc =>
      dsimp only
      intro i hi
      have := List.mem_filter.mp hi
      simpa using this.2

theorem selectAllGo_mem_lt :
    ∀ (l : List FileEntry) (k i : Nat), i ∈ selectAllGo l k → i < k + l.length := by
  intro l
  induction l with
  | nil => intro k i h; cases h
  | cons e tl ih =>
    intro k i h
    rw [selectAllGo] at h
    by_cases hn : e.name ≠ ".."
    · rw [if_pos hn] at h
      rcases List.mem_cons.mp h with rfl | h2
      · simp
      · have := ih (k + 1) i h2
        rw [List.length_cons]
        omega
    · rw [if_neg hn] at h
      have := ih (k + 1) i h
      rw [List.length_cons]
      omega

/-- Claim C10: every pane operation that returns successfully keeps all
selected indices strictly below the entry count. -/
theorem pane_ops_preserve_selection_invariant :
    ∀ (op : PaneOp) (p : PaneState),
      SelInv p → (applyPaneOp op p).2 = none → SelInv (applyPaneOp op p).1 := by
  intro op p hinv hok
  cases op with
  | refreshOp listing => exact refresh_selInv p listing hok
  | enterDir np d listing =>
    dsimp only [applyPaneOp] at hok ⊢
    unfold PaneState.enter_directory at hok ⊢
    by_cases hd : d = true
    · rw [if_pos hd] at hok ⊢
      exact refresh_selInv _ listing hok
    · rw [if_neg hd] at hok ⊢
      exact hinv
  | toggleSel =>
    dsimp only [applyPaneOp]
    unfold PaneState.toggle_selection
    by_cases hlt : p.cursor_index < p.entries.length
    · rw [if_pos hlt]
      by_cases hmem : p.cursor_index ∈ p.selected_indices
      · rw [if_pos hmem]
        intro i hi
        exact hinv i (List.mem_of_mem_filter hi)
      · rw [if_neg hmem]
        intro i hi
        rcases (mem_hsInsert _ _ _).mp hi with rfl | h2
        · exact hlt
        · exact hinv i h2
    · rw [if_neg hlt]
      exact hinv
  | selectAllOp =>
    dsimp only [applyPaneOp]
    intro i hi
    have := selectAllGo_mem_lt p.entries 0 i hi
    simpa using this
  | deselectAllOp =>
    intro i hi
    cases hi
  | selectPattern pat =>
    dsimp only [applyPaneOp]
    intro i hi
    rw [show (p.select_by_pattern pat).1.entries = p.entries from rfl]
    have hm := (selectGo_mem pat p.entries 0 p.selected_indices 0 i).mp hi
    rcases hm with hs | ⟨k, e, hk, -, hik⟩
    · exact hinv i hs
    · obtain ⟨hklt, -⟩ := List.getElem?_eq_some.mp hk
      omega
  | upOp h =>
    dsimp only [applyPaneOp]
    unfold PaneState.cursor_up
    split <;> exact hinv
  | downOp h =>
    dsimp only [applyPaneOp]
    unfold PaneState.cursor_down
    split <;> exact hinv
  | pageUpOp h => exact hinv
  | pageDownOp h => exact hinv
  | homeOp h => exact hinv
  | endOp h => exact hinv

/-- Witness for C10: the glob selection on the example pane keeps the
invariant. -/
theorem pane_ops_preserve_selection_invariant_witness :
    SelInv (applyPaneOp (.selectPattern "*.txt") pGlobW).1 :=
  pane_ops_preserve_selection_invariant (.selectPattern "*.txt") pGlobW
    (fun i hi => absurd hi (by intro h; cases h)) rfl

end GeekCommander
